import Mathlib

/-!
Verification of the obsidian-graph-memory graph engine

A shallow embedding of `src/graph.ts`, `src/obsidian-api.ts` (at its
interface boundary) and `src/tools/find-path.ts`, together with proofs of
the specification's claims about them.

Modelling conventions:
* JavaScript `Map` objects are association lists (`List (String × α)`);
  `Map.set` overwrites the value in place when the key exists and appends
  otherwise, `Map.get` returns the first (unique) matching entry.
* JavaScript `Set` objects are duplicate-free lists in insertion order;
  `Set.add` appends when the element is missing.
* Strings are analysed character by character (`List Char`); the regexes
  of the source are translated to their operational matching behaviour.
* `async` results become `Option`/`Except` values: a rejected per-document
  fetch is `none`, a failed directory listing is the `Except.error` case.
* `Date` timestamps are natural numbers.
-/

namespace ObsidianGraph

/-- JS `Map.get`: first entry with the key (keys are unique by construction). -/
def alistFind {α : Type} (m : List (String × α)) (k : String) : Option α :=
  match m with
  | [] => none
  | (k', v) :: rest => if k' = k then some v else alistFind rest k

/-- JS `Map.set`: overwrite in place when the key exists, append otherwise. -/
def alistSet {α : Type} (m : List (String × α)) (k : String) (v : α) :
    List (String × α) :=
  match m with
  | [] => [(k, v)]
  | (k', v') :: rest =>
      if k' = k then (k, v) :: rest else (k', v') :: alistSet rest k v

/-- JS `Set.add`: append when missing, keep insertion order. -/
def setAdd (s : List String) (x : String) : List String :=
  if x ∈ s then s else s ++ [x]

/-- JS `new Set(list)`: keep the first occurrence of each element
(structurally recursive formulation: dedup the tail, then drop later
duplicates of the head). -/
def dedupKeepFirst : List String → List String
  | [] => []
  | x :: xs => x :: (dedupKeepFirst xs).filter (fun y => y ≠ x)

/-- `String.split` on a single separator character, over the character
list (same semantics as JS `split("/")` and Lean `String.splitOn "/"`:
the empty string yields one empty part, a trailing separator yields a
trailing empty part). -/
def splitOnChar (sep : Char) : List Char → List (List Char)
  | [] => [[]]
  | c :: cs =>
      if c = sep then [] :: splitOnChar sep cs
      else
        match splitOnChar sep cs with
        | r :: rs => (c :: r) :: rs
        | [] => [[c]]

/-- Does `pre` occur literally at the head of `l`? -/
def startsWithChars : List Char → List Char → Bool
  | [], _ => true
  | _ :: _, [] => false
  | p :: ps, c :: cs => p = c && startsWithChars ps cs

/-- Does `suffix` occur literally at the end of `l`? -/
def endsWithChars (suffix l : List Char) : Bool :=
  startsWithChars suffix.reverse l.reverse

/-- Join character lists with a separator character (JS `join("/")`). -/
def intercalateChar (sep : Char) : List (List Char) → List Char
  | [] => []
  | [x] => x
  | x :: xs => x ++ sep :: intercalateChar sep xs

/-- JS `String.prototype.trim`: drop whitespace from both ends. -/
def trimChars (cs : List Char) : List Char :=
  ((cs.dropWhile Char.isWhitespace).reverse.dropWhile Char.isWhitespace).reverse

/-- Extract note name from path: `"Infrastructure/Foo.md"` becomes `"Foo"`.
JS: `path.split("/").pop() || path` then stripping one trailing `.md`; the
`|| path` branch fires when the last segment is the empty string. -/
def nameFromPath (path : String) : String :=
  let parts := splitOnChar '/' path.data
  let basename :=
    match parts.getLast? with
    | some s => if s = [] then path.data else s
    | none => path.data
  String.mk
    (if endsWithChars ".md".data basename then
      basename.take (basename.length - 3)
    else basename)

/-- Extract folder from path: `"Infrastructure/Foo.md"` becomes
`"Infrastructure"`. JS: join of all but the last `/`-segment, `""` when the
path has a single segment. -/
def folderFromPath (path : String) : String :=
  let parts := splitOnChar '/' path.data
  if parts.length > 1 then String.mk (intercalateChar '/' parts.dropLast)
  else ""

/-- Characters allowed in the target group of the wikilink regex:
the class `[^\]|#]`. -/
def wikilinkTargetChar (c : Char) : Bool :=
  c ≠ ']' && c ≠ '|' && c ≠ '#'

/-- Maximal prefix run of characters satisfying `p` (regex `X*` for a
character class `X`). -/
def takeRun (p : Char → Bool) : List Char → List Char
  | [] => []
  | c :: cs => if p c then c :: takeRun p cs else []

/-- Remainder after the maximal prefix run of characters satisfying `p`. -/
def dropRun (p : Char → Bool) : List Char → List Char
  | [] => []
  | c :: cs => if p c then dropRun p cs else c :: cs

/-- Character class `[^\]]` of the display/section group. -/
def notRBracket (c : Char) : Bool := c ≠ ']'

/-- The optional group `(?:[|#][^\]]+)?` directly followed by `]]`, applied
after the delimiter character itself: the display/section text is the
maximal run without `]` (it must be non-empty), then `]]` must follow.
Returns the remainder after the closing `]]`. -/
def matchDisplayTail (rest' : List Char) : Option (List Char) :=
  match takeRun notRBracket rest', dropRun notRBracket rest' with
  | [], _ => none
  | _ :: _, ']' :: ']' :: rest3 => some rest3
  | _ :: _, _ => none

/-- One attempt of the regex `\[\[([^\]|#]+)(?:[|#][^\]]+)?\]\]` at a
position directly after an opening `[[`.  The character classes exclude
every delimiter that follows them, so the backtracking regex engine is
deterministic here: the target is the maximal run without `]`, `|`, `#`;
when a `|` or `#` follows, the optional group consumes it plus the maximal
run without `]`; then `]]` must follow, else the whole attempt fails.
Returns the (untrimmed) target and the remainder after the match. -/
def matchWikilinkBody (cs : List Char) : Option (List Char × List Char) :=
  match takeRun wikilinkTargetChar cs, dropRun wikilinkTargetChar cs with
  | [], _ => none
  | _ :: _, ']' :: ']' :: rest' => some (takeRun wikilinkTargetChar cs, rest')
  | _ :: _, '|' :: rest' =>
      (matchDisplayTail rest').map (fun r => (takeRun wikilinkTargetChar cs, r))
  | _ :: _, '#' :: rest' =>
      (matchDisplayTail rest').map (fun r => (takeRun wikilinkTargetChar cs, r))
  | _ :: _, _ => none

/-- The scanning loop of `regex.exec` for the wikilink regex: attempt a
match at every position from left to right; after a successful match
continue directly after it, after a failed attempt at a `[[` advance one
character.  The fuel starts at the text length plus one and every step
strictly shortens the remaining text, so the fuel never runs out. -/
def parseWikilinksAux : Nat → List Char → List String
  | 0, _ => []
  | _ + 1, [] => []
  | fuel + 1, c :: rest =>
      if c = '[' then
        match rest with
        | c2 :: rest2 =>
            if c2 = '[' then
              match matchWikilinkBody rest2 with
              | some (target, rest') =>
                  String.mk (trimChars target) :: parseWikilinksAux fuel rest'
              | none => parseWikilinksAux fuel ('[' :: rest2)
            else parseWikilinksAux fuel rest
        | [] => parseWikilinksAux fuel rest
      else parseWikilinksAux fuel rest

/-- Parse wikilinks from markdown content (source: `parseWikilinks`). -/
def parseWikilinks (content : String) : List String :=
  parseWikilinksAux (content.data.length + 1) content.data

/-! ### Tag parsing (source: `parseTags`) -/

/-- Split `l` at the first occurrence of the pattern `pat`: returns the
part before the occurrence and the part after it (the non-greedy scan of
`[\s\S]*?` followed by the literal pattern). -/
def splitOnSub (pat : List Char) : List Char → Option (List Char × List Char)
  | [] => if startsWithChars pat [] then some ([], []) else none
  | c :: cs =>
      if startsWithChars pat (c :: cs) then some ([], (c :: cs).drop pat.length)
      else
        match splitOnSub pat cs with
        | some (pre, post) => some (c :: pre, post)
        | none => none

/-- The frontmatter regex (anchored at the very start: literal dashes-newline,
then the non-greedy group, then newline-dashes): the group is everything up
to the earliest later newline-dashes occurrence.  Returns the group and the
remainder of the content after the whole match. -/
def parseFrontmatter (cs : List Char) : Option (List Char × List Char) :=
  if startsWithChars ("---\n".toList) cs then
    match splitOnSub ("\n---".toList) (cs.drop 4) with
    | some (fm, rest) => some (fm, rest)
    | none => none
  else none

/-- The replace of a leading-or-trailing-quote regex by the empty string:
strip one leading and one trailing quote character. -/
def stripEndQuotes (s : List Char) : List Char :=
  let s1 := match s with
    | c :: rest => if c = '"' || c = '\'' then rest else s
    | [] => []
  match s1.getLast? with
  | some c => if c = '"' || c = '\'' then s1.dropLast else s1
  | none => s1

/-- Cleaning applied to each frontmatter tag item:
`.trim()`, strip one surrounding quote pair, strip one leading `#`. -/
def cleanFmTag (s : List Char) : String :=
  match stripEndQuotes (trimChars s) with
  | '#' :: rest => String.mk rest
  | t2 => String.mk t2

/-- First match of the multiline inline-list regex (`tags:` at a line start,
whitespace, a bracketed list) attempted at one line start: literal `tags:`,
maximal whitespace run, `[`, then everything up to the first `]` (possibly
empty) as the group. -/
def matchTagsInlineAt (cs : List Char) : Option (List Char) :=
  if startsWithChars ("tags:".toList) cs then
    match dropRun Char.isWhitespace (cs.drop 5) with
    | '[' :: rest' =>
        match dropRun notRBracket rest' with
        | ']' :: _ => some (takeRun notRBracket rest')
        | _ => none
    | _ => none
  else none

/-- Scan of an `/m`-anchored regex: the match function is attempted at
position `0` and directly after every newline, in order. -/
def scanLineStarts {α : Type} (f : List Char → Option α) (cs : List Char) :
    Option α :=
  match f cs with
  | some r => some r
  | none => loop cs
where
  loop : List Char → Option α
    | [] => none
    | '\n' :: rest =>
        match f rest with
        | some r => some r
        | none => loop rest
    | _ :: rest => loop rest

/-- One repetition of the YAML block-list item group: a non-empty
whitespace run, `-`, a non-empty whitespace run, the rest of the line as
the item, and an optional newline.  Repetitions whose dot-plus part can
only cover whitespace (end of the block) are dropped here directly: their
items clean to the empty string, which the source also discards
(`if (cleaned) tags.add(cleaned)`).  The fuel starts at the length of the
scanned text and every repetition consumes at least one character, so the
fuel never runs out. -/
def yamlItemsAux : Nat → List Char → List (List Char)
  | 0, _ => []
  | fuel + 1, cs =>
      match cs with
      | [] => []
      | _ =>
        if (takeRun Char.isWhitespace cs).isEmpty then []
        else
          match dropRun Char.isWhitespace cs with
          | '-' :: r2 =>
              if (takeRun Char.isWhitespace r2).isEmpty then []
              else
                match dropRun Char.isWhitespace r2 with
                | [] => []
                | c :: r3 =>
                    let item := takeRun (fun d => d ≠ '\n') (c :: r3)
                    match dropRun (fun d => d ≠ '\n') (c :: r3) with
                    | '\n' :: r5 => item :: yamlItemsAux fuel r5
                    | r4 => item :: yamlItemsAux fuel r4
          | _ => []

/-- First match of the multiline block-list regex (`tags:` at a line start,
whitespace containing a newline, then dashed item lines) attempted at one
line start: literal `tags:`, then a whitespace run that must contain a
newline (greedy whitespace backtracks to its last newline, which is
consumed), then the block-list items. -/
def matchTagsYamlAt (cs : List Char) : Option (List (List Char)) :=
  if startsWithChars ("tags:".toList) cs then
    let w := takeRun Char.isWhitespace (cs.drop 5)
    if w.contains '\n' then
      let afterLastNl := (cs.drop 5).drop (w.length - (w.reverse.takeWhile (fun c => c ≠ '\n')).length)
      some (yamlItemsAux afterLastNl.length afterLastNl)
    else none
  else none

/-- Character class `[a-zA-Z]` opening an inline tag. -/
def inlineTagStart (c : Char) : Bool := c.isAlpha

/-- Character class continuing an inline tag: letters, digits, underscore,
slash, hyphen. -/
def inlineTagChar (c : Char) : Bool :=
  c.isAlpha || c.isDigit || c = '_' || c = '/' || c = '-'

/-- The global scan of the inline-tag regex (`#` preceded by the start of
the text or whitespace, then a letter and a run of tag characters): the
flag records whether the current position is the start of the text or
directly preceded by whitespace. -/
def inlineTagsAux : Nat → Bool → List Char → List (List Char)
  | 0, _, _ => []
  | _ + 1, _, [] => []
  | fuel + 1, ok, '#' :: rest =>
      if ok then
        match rest with
        | [] => []
        | c :: rest' =>
            if inlineTagStart c then
              (c :: takeRun inlineTagChar rest') ::
                inlineTagsAux fuel false (dropRun inlineTagChar rest')
            else inlineTagsAux fuel false (c :: rest')
      else inlineTagsAux fuel false rest
  | fuel + 1, _, c :: rest => inlineTagsAux fuel c.isWhitespace rest

/-- Parse tags from markdown content (source: `parseTags`): frontmatter
inline-list form, frontmatter block-list form, then inline `#tag` tokens of
the body, merged into one insertion-ordered set. -/
def parseTags (content : String) : List String :=
  let cs := content.toList
  let fmSplit := parseFrontmatter cs
  let fmTags :=
    match fmSplit with
    | some (fm, _) =>
        let inline :=
          match scanLineStarts matchTagsInlineAt fm with
          | some inner =>
              ((splitOnChar ',' inner).map cleanFmTag).filter (fun t => t ≠ "")
          | none => []
        let yaml :=
          match scanLineStarts matchTagsYamlAt fm with
          | some items => (items.map cleanFmTag).filter (fun t => t ≠ "")
          | none => []
        inline ++ yaml
    | none => []
  let body :=
    match fmSplit with
    | some (_, rest) => rest
    | none => cs
  let bodyTags := (inlineTagsAux (body.length + 1) true body).map String.mk
  dedupKeepFirst (fmTags ++ bodyTags)

/-! ### The graph store and its construction (source: `buildGraph`) -/

structure GraphNode where
  path : String
  name : String
  folder : String
  tags : List String
  hasContent : Bool
  deriving Repr, DecidableEq

structure Graph where
  nodes : List (String × GraphNode)
  edges : List (String × List String)
  reverseEdges : List (String × List String)
  lastRefresh : Nat
  deriving Repr, DecidableEq

/-- The node record built for a path and its (possibly empty) content. -/
def mkNode (path content : String) : GraphNode :=
  { path := path
    name := nameFromPath path
    folder := folderFromPath path
    tags := parseTags content
    hasContent := (trimChars content.data).length > 0 }

/-- The `noteContents` map: contents of all successfully fetched documents,
keyed by path, in listing order.  The fetch loop processes fixed-size
batches of the path list in order and `Promise.allSettled` keeps the batch
order, so fulfilled results are inserted in listing order; a rejected fetch
(`fetch p = none`) inserts nothing. -/
def buildNoteContents (paths : List String) (fetch : String → Option String) :
    List (String × String) :=
  paths.foldl
    (fun m p =>
      match fetch p with
      | some c => alistSet m p c
      | none => m)
    []

/-- The node-construction loop: for every listed path (in order) store the
node under its derived name and initialise empty forward and reverse
adjacency entries.  `Map.set` overwrites, so on a name collision the later
path's node wins. -/
def buildNodeMaps (paths : List String) (noteContents : List (String × String)) :
    List (String × GraphNode) × List (String × List String) ×
      List (String × List String) :=
  paths.foldl
    (fun s p =>
      (alistSet s.1 (nameFromPath p)
        (mkNode p ((alistFind noteContents p).getD "")),
       alistSet s.2.1 (nameFromPath p) [],
       alistSet s.2.2 (nameFromPath p) []))
    ([], [], [])

/-- Add `v` to the set stored under key `k` (the JS
`map.get(k)!.add(v)` on a map whose keys are unique). -/
def alistAddToSet (m : List (String × List String)) (k v : String) :
    List (String × List String) :=
  m.map (fun e => if e.1 = k then (e.1, setAdd e.2 v) else e)

/-- The edge-construction loop: for every fetched document (in map order)
parse its wikilinks and, for each target that is a known node, add a
forward edge and the corresponding reverse edge.  Unknown targets are
dropped. -/
def buildEdgeMaps (noteContents : List (String × String))
    (nodes : List (String × GraphNode))
    (init : List (String × List String) × List (String × List String)) :
    List (String × List String) × List (String × List String) :=
  noteContents.foldl
    (fun s pc =>
      (parseWikilinks pc.2).foldl
        (fun t target =>
          if (alistFind nodes target).isSome then
            (alistAddToSet t.1 (nameFromPath pc.1) target,
             alistAddToSet
               (if (alistFind t.2 target).isSome then t.2
                else alistSet t.2 target [])
               target (nameFromPath pc.1))
          else t)
        s)
    init

/-- The graph built from a successfully listed path list and the
per-document fetch results (source: `buildGraph` after `listAllNotes`
succeeded).  `now` is the build timestamp. -/
def buildGraphTotal (paths : List String) (fetch : String → Option String)
    (now : Nat) : Graph :=
  let noteContents := buildNoteContents paths fetch
  let init := buildNodeMaps paths noteContents
  let final := buildEdgeMaps noteContents init.1 (init.2.1, init.2.2)
  { nodes := init.1
    edges := final.1
    reverseEdges := final.2
    lastRefresh := now }

/-- `buildGraph` itself: the only awaited step that can reject is the
full document listing (`listAllNotes`); per-document fetches go through
`Promise.allSettled` and never reject the whole build.  A listing failure
is modelled as `listing = none` and propagates as an error. -/
def rebuild (listing : Option (List String)) (fetch : String → Option String)
    (now : Nat) : Except Unit Graph :=
  match listing with
  | none => Except.error ()
  | some paths => Except.ok (buildGraphTotal paths fetch now)

/-- The module-level snapshot after a rebuild attempt: on success the new
graph is published, on failure the previous snapshot stays in place. -/
def publishRebuild (prev : Graph) (listing : Option (List String))
    (fetch : String → Option String) (now : Nat) : Graph :=
  match rebuild listing fetch now with
  | Except.error _ => prev
  | Except.ok g => g

/-! ### Query algorithms (source: `queryRelated`, `findPath`, `getHubs`,
`getOrphans`, `getClusters`, `getStats`) -/

/-- The neighbour set used by the undirected traversals:
`new Set([...outgoing, ...incoming])` with missing adjacency treated as
empty. -/
def nbrsOf (edges reverseEdges : List (String × List String)) (name : String) :
    List String :=
  dedupKeepFirst ((alistFind edges name).getD [] ++ (alistFind reverseEdges name).getD [])

/-- All names a BFS starting at `start` can ever visit: the start plus
every name occurring in an adjacency set.  Used to size the fuel of the
loops; every loop iteration either pops a queue entry or first pushes
entries for names never visited before, so the iteration count is bounded
by this list's length plus the initial queue. -/
def bfsUniverse (edges reverseEdges : List (String × List String))
    (start : String) : List String :=
  dedupKeepFirst
    (start :: ((edges.map Prod.snd).flatten ++ (reverseEdges.map Prod.snd).flatten))

/-- Fuel for the BFS loops; always sufficient (see `bfsUniverse`). -/
def bfsFuel (edges reverseEdges : List (String × List String))
    (start : String) : Nat :=
  (bfsUniverse edges reverseEdges start).length + 2

structure RelatedResult where
  name : String
  path : String
  distance : Nat
  deriving Repr, DecidableEq

/-- The neighbour-pushing loop of `queryRelated`: every neighbour not yet
visited is marked visited and enqueued at the given distance. -/
def pushNeighbors (ns : List String) (dist : Nat)
    (queue : List (String × Nat)) (visited : List String) :
    List (String × Nat) × List String :=
  match ns with
  | [] => (queue, visited)
  | n :: rest =>
      if n ∈ visited then pushNeighbors rest dist queue visited
      else pushNeighbors rest dist (queue ++ [(n, dist)]) (visited ++ [n])

/-- The BFS loop of `queryRelated`: pop the queue head; record it (with its
node's path) when its distance is positive and its name is a known node;
expand it when its distance is below the depth bound. -/
def queryRelatedAux (nodes : List (String × GraphNode))
    (edges reverseEdges : List (String × List String)) (depth : Nat) :
    Nat → List (String × Nat) → List String → List RelatedResult →
      List RelatedResult
  | 0, _, _, acc => acc
  | _ + 1, [], _, acc => acc
  | fuel + 1, (name, dist) :: queue, visited, acc =>
      let acc' :=
        if 0 < dist then
          match alistFind nodes name with
          | some node => acc ++ [⟨name, node.path, dist⟩]
          | none => acc
        else acc
      if dist < depth then
        let step := pushNeighbors (nbrsOf edges reverseEdges name) (dist + 1)
          queue visited
        queryRelatedAux nodes edges reverseEdges depth fuel step.1 step.2 acc'
      else queryRelatedAux nodes edges reverseEdges depth fuel queue visited acc'

/-- BFS neighbourhood expansion (source: `queryRelated`). -/
def queryRelated (g : Graph) (startName : String) (depth : Nat) :
    List RelatedResult :=
  queryRelatedAux g.nodes g.edges g.reverseEdges depth
    (bfsFuel g.edges g.reverseEdges startName) [(startName, 0)] [startName] []

/-- The reconstruction loop of `findPath`: follow parent pointers from the
target back to the start, prepending each.  The fuel (one more than the
size of the parent map) always suffices because the parent chains are
acyclic. -/
def reconstructPath (parent : List (String × String)) :
    Nat → String → List String → List String
  | 0, _, path => path
  | fuel + 1, node, path =>
      match alistFind parent node with
      | some p => reconstructPath parent fuel p (p :: path)
      | none => path

/-- The neighbour loop of `findPath`: each unvisited neighbour is marked
visited and given a parent pointer; if it is the target the reconstructed
path is returned at once, otherwise it is enqueued. -/
def visitNeighbors (toName current : String) :
    List String → List String → List (String × String) → List String →
      (List String × List (String × String) × List String) ⊕ List String
  | [], visited, parent, qAcc => Sum.inl (visited, parent, qAcc)
  | n :: rest, visited, parent, qAcc =>
      if n ∈ visited then visitNeighbors toName current rest visited parent qAcc
      else
        let visited' := visited ++ [n]
        let parent' := alistSet parent n current
        if n = toName then
          Sum.inr (reconstructPath parent' (parent'.length + 1) toName [toName])
        else visitNeighbors toName current rest visited' parent' (qAcc ++ [n])

/-- The BFS loop of `findPath`. -/
def findPathAux (edges reverseEdges : List (String × List String))
    (toName : String) :
    Nat → List String → List String → List (String × String) →
      Option (List String)
  | 0, _, _, _ => none
  | _ + 1, [], _, _ => none
  | fuel + 1, current :: queue, visited, parent =>
      match visitNeighbors toName current (nbrsOf edges reverseEdges current)
          visited parent [] with
      | Sum.inr path => some path
      | Sum.inl (visited', parent', newQ) =>
          findPathAux edges reverseEdges toName fuel (queue ++ newQ) visited'
            parent'

/-- BFS shortest path (source: `findPath`). -/
def findPath (g : Graph) (fromName toName : String) : Option (List String) :=
  if fromName = toName then some [fromName]
  else if (alistFind g.nodes fromName).isSome = false then none
  else if (alistFind g.nodes toName).isSome = false then none
  else
    findPathAux g.edges g.reverseEdges toName
      (bfsFuel g.edges g.reverseEdges fromName) [fromName] [fromName] []

/-- Stable insertion into a descending-sorted list: skip past strictly
greater keys, insert before the first equal-or-smaller key. -/
def insertDescBy {α : Type} (key : α → Nat) (x : α) : List α → List α
  | [] => [x]
  | y :: ys =>
      if key x < key y then y :: insertDescBy key x ys else x :: y :: ys

/-- Stable sort, descending by `key`.  A stable sort is uniquely determined
by the comparator, so this models the stable JS `Array.prototype.sort`
with a descending numeric comparator. -/
def sortDescBy {α : Type} (key : α → Nat) : List α → List α
  | [] => []
  | x :: xs => insertDescBy key x (sortDescBy key xs)

structure HubResult where
  name : String
  path : String
  outgoing : Nat
  incoming : Nat
  total : Nat
  deriving Repr, DecidableEq

/-- Most connected notes (source: `getHubs`): degree records sorted by
total degree descending (a stable sort, as JS `Array.prototype.sort`),
truncated to `topN`. -/
def getHubs (g : Graph) (topN : Nat) : List HubResult :=
  let hubs := g.nodes.map (fun e =>
    let outgoing := ((alistFind g.edges e.1).getD []).length
    let incoming := ((alistFind g.reverseEdges e.1).getD []).length
    HubResult.mk e.1 e.2.path outgoing incoming (outgoing + incoming))
  (sortDescBy (fun h => h.total) hubs).take topN

/-- Notes with zero links in both directions (source: `getOrphans`),
as (name, path) pairs. -/
def getOrphans (g : Graph) : List (String × String) :=
  g.nodes.foldl
    (fun acc e =>
      let outgoing := ((alistFind g.edges e.1).getD []).length
      let incoming := ((alistFind g.reverseEdges e.1).getD []).length
      if outgoing = 0 && incoming = 0 then acc ++ [(e.1, e.2.path)] else acc)
    []

inductive ClusterMode where
  | folder
  | tag
  deriving Repr, DecidableEq

/-- Append `v` to the member list stored under `k`, creating the bucket at
the end when missing (the JS `groups` map of `getClusters`). -/
def alistPushMember (m : List (String × List (String × String)))
    (k : String) (v : String × String) :
    List (String × List (String × String)) :=
  if (alistFind m k).isSome then
    m.map (fun e => if e.1 = k then (e.1, e.2 ++ [v]) else e)
  else m ++ [(k, [v])]

/-- Group notes by folder or tag (source: `getClusters`): buckets in
first-insertion order, then stably sorted by member count descending.
A folder-less node lands in the "(root)" bucket; a tag-less node in the
"(untagged)" bucket; a node with several tags lands in each tag's bucket. -/
def getClusters (g : Graph) (mode : ClusterMode) :
    List (String × List (String × String)) :=
  let groups := g.nodes.foldl
    (fun groups e =>
      match mode with
      | ClusterMode.folder =>
          let key := if e.2.folder = "" then "(root)" else e.2.folder
          alistPushMember groups key (e.1, e.2.path)
      | ClusterMode.tag =>
          match e.2.tags with
          | [] => alistPushMember groups "(untagged)" (e.1, e.2.path)
          | tags => tags.foldl
              (fun groups tag => alistPushMember groups tag (e.1, e.2.path))
              groups)
    []
  sortDescBy (fun e => e.2.length) groups

structure Stats where
  totalNotes : Nat
  totalLinks : Nat
  totalTags : Nat
  orphanCount : Nat
  /-- `Math.round(avg * 100)`, i.e. the average scaled by 100 and rounded
  to the nearest integer (the source keeps `avg` as a float rounded to two
  decimal places; the scaled integer represents the same value exactly). -/
  avgLinksPerNoteTimes100 : Nat
  lastRefresh : Nat
  folders : Nat
  deriving Repr, DecidableEq

/-- Vault-wide statistics (source: `getStats`).  The folder set only
collects non-empty folder labels (`if (node.folder)` is JS truthiness). -/
def getStats (g : Graph) : Stats :=
  let totalLinks := g.nodes.foldl
    (fun n e => n + ((alistFind g.edges e.1).getD []).length) 0
  let allTags := g.nodes.foldl
    (fun s e => e.2.tags.foldl setAdd s) []
  let folders := g.nodes.foldl
    (fun s e => if e.2.folder ≠ "" then setAdd s e.2.folder else s) []
  let totalNotes := g.nodes.length
  { totalNotes := totalNotes
    totalLinks := totalLinks
    totalTags := allTags.length
    orphanCount := (getOrphans g).length
    avgLinksPerNoteTimes100 :=
      if totalNotes > 0 then (totalLinks * 100 * 2 + totalNotes) / (2 * totalNotes)
      else 0
    lastRefresh := g.lastRefresh
    folders := folders.length }

/-! ### The find-path tool handler (source: `tools/find-path.ts`) -/

inductive FindPathOutcome where
  | notFound (name : String)
  | noPath
  | found (path : List String)
  deriving Repr, DecidableEq

/-- JS `toLowerCase`, character-wise. -/
def lowerChars (cs : List Char) : List Char := cs.map Char.toLower

/-- Case-insensitive name resolution of the tool layer: an exact key
first, else the first node key equal up to lower-casing. -/
def resolveName (g : Graph) (name : String) : Option String :=
  if (alistFind g.nodes name).isSome then some name
  else
    (g.nodes.map Prod.fst).find?
      (fun k => lowerChars k.data = lowerChars name.data)

/-- The `graph_find_path` handler: resolve both names (reporting which one
failed), then run `findPath` and report "no path" or the path. -/
def findPathTool (g : Graph) (fromName toName : String) : FindPathOutcome :=
  match resolveName g fromName with
  | none => FindPathOutcome.notFound fromName
  | some rf =>
      match resolveName g toName with
      | none => FindPathOutcome.notFound toName
      | some rt =>
          match findPath g rf rt with
          | none => FindPathOutcome.noPath
          | some p => FindPathOutcome.found p

/-! ### Reachability in the undirected view -/

/-- A chain of `n` hops through the undirected view (the union of forward
and reverse adjacency, exactly as the BFS traversals enumerate it). -/
inductive ReachIn (edges reverseEdges : List (String × List String)) :
    String → String → Nat → Prop where
  | refl (a : String) : ReachIn edges reverseEdges a a 0
  | step {a b c : String} {n : Nat} :
      b ∈ nbrsOf edges reverseEdges a → ReachIn edges reverseEdges b c n →
      ReachIn edges reverseEdges a c (n + 1)

/-- `d` is the exact BFS shortest distance from `a` to `b`. -/
def MinReach (edges reverseEdges : List (String × List String))
    (a b : String) (d : Nat) : Prop :=
  ReachIn edges reverseEdges a b d ∧
    ∀ m, ReachIn edges reverseEdges a b m → d ≤ m

/-! ### Characterisation of the edge-construction loop -/

/-- The evolution of the forward-edge map while one document's links are
processed. -/
def edgeStepE (nodes : List (String × GraphNode)) (src : String)
    (E : List (String × List String)) (target : String) :
    List (String × List String) :=
  if (alistFind nodes target).isSome then alistAddToSet E src target else E

/-- The evolution of the reverse-edge map while one document's links are
processed. -/
def edgeStepR (nodes : List (String × GraphNode)) (src : String)
    (R : List (String × List String)) (target : String) :
    List (String × List String) :=
  if (alistFind nodes target).isSome then
    alistAddToSet
      (if (alistFind R target).isSome then R else alistSet R target [])
      target src
  else R

/-- All known-node targets among `links` added (in order) to the set `s`. -/
def addKnownLinks (nodes : List (String × GraphNode)) (s : List String)
    (links : List String) : List String :=
  links.foldl
    (fun s t => if (alistFind nodes t).isSome then setAdd s t else s) s

/-! ### The wikilink reference forms of the specification -/

/-- Modelled from the spec: an occurrence of one of the three reference
forms.  `WikilinkForm cs target rest` holds when `cs` begins with
`[[Target]]`, `[[Target|Display]]` or `[[Target#Section]]`, `target` is
the trimmed Target portion, and `rest` is the text directly after the
occurrence.  The Target is non-empty and matched non-greedily (it stops at
the first `]`, `|` or `#`); the display text and section anchor are
non-empty, contain no `]` (so a match never spans a `]]` boundary) and are
discarded. -/
inductive WikilinkForm : List Char → String → List Char → Prop where
  | plain (target rest : List Char)
      (h1 : target ≠ [])
      (h2 : ∀ c ∈ target, ¬(c = ']' ∨ c = '|' ∨ c = '#')) :
      WikilinkForm ('[' :: '[' :: (target ++ ']' :: ']' :: rest))
        (String.mk (trimChars target)) rest
  | withDisplay (target display rest : List Char)
      (h1 : target ≠ [])
      (h2 : ∀ c ∈ target, ¬(c = ']' ∨ c = '|' ∨ c = '#'))
      (h3 : display ≠ [])
      (h4 : ∀ c ∈ display, c ≠ ']') :
      WikilinkForm
        ('[' :: '[' :: (target ++ '|' :: (display ++ ']' :: ']' :: rest)))
        (String.mk (trimChars target)) rest
  | withAnchor (target anchor rest : List Char)
      (h1 : target ≠ [])
      (h2 : ∀ c ∈ target, ¬(c = ']' ∨ c = '|' ∨ c = '#'))
      (h3 : anchor ≠ [])
      (h4 : ∀ c ∈ anchor, c ≠ ']') :
      WikilinkForm
        ('[' :: '[' :: (target ++ '#' :: (anchor ++ ']' :: ']' :: rest)))
        (String.mk (trimChars target)) rest

/-- Modelled from the spec: the left-to-right scan collecting, in order of
occurrence, the trimmed targets of every leftmost non-overlapping
occurrence of the reference forms; a position where no form begins is
skipped. -/
inductive SpecWikilinks : List Char → List String → Prop where
  | nil : SpecWikilinks [] []
  | emit {cs : List Char} {target : String} {rest : List Char}
      {ls : List String} :
      WikilinkForm cs target rest → SpecWikilinks rest ls →
      SpecWikilinks cs (target :: ls)
  | skip {c : Char} {cs : List Char} {ls : List String} :
      (∀ target rest, ¬WikilinkForm (c :: cs) target rest) →
      SpecWikilinks cs ls → SpecWikilinks (c :: cs) ls

/-! ### BFS infrastructure: new-name filtering and reachability lemmas -/

/-- The names of `ns` not yet in `v`, in order.  For a duplicate-free `ns`
this is exactly the set of names newly visited by one BFS expansion. -/
def filterNotMem (v : List String) : List String → List String
  | [] => []
  | n :: rest =>
      if n ∈ v then filterNotMem v rest else n :: filterNotMem v rest

/-- Loop invariant of the BFS of `queryRelated`: the queue (with recorded
distances) and the visited set are in the standard BFS relationship, and
every node that was popped without being expanded lies at distance at
least `depth`. -/
structure BfsInv (E R : List (String × List String)) (start : String)
    (depth : Nat) (queue : List (String × Nat)) (visited : List String) :
    Prop where
  qsub : ∀ p ∈ queue, p.1 ∈ visited
  qmin : ∀ p ∈ queue, MinReach E R start p.1 p.2
  qsorted : List.Pairwise (fun (p q : String × Nat) => p.2 ≤ q.2) queue
  qspan : ∀ p ∈ queue, ∀ q ∈ queue, p.2 ≤ q.2 + 1
  qdepth : ∀ p ∈ queue, p.2 ≤ depth
  qnodup : (queue.map Prod.fst).Nodup
  vnodup : visited.Nodup
  vstart : start ∈ visited
  clos : ∀ v ∈ visited, v ∉ queue.map Prod.fst →
      (∀ b ∈ nbrsOf E R v, b ∈ visited) ∨
      (∀ m, ReachIn E R start v m → depth ≤ m)

/-- Loop invariant of the BFS of `findPath`: the queue is carried with
ghost distances; every fully processed node is fully expanded, the target
is never visited while the loop runs, and the parent map codes shortest
parent chains back to the start. -/
structure PathInv (E R : List (String × List String)) (start target : String)
    (qd : List (String × Nat)) (visited : List String)
    (parent : List (String × String)) : Prop where
  qsub : ∀ p ∈ qd, p.1 ∈ visited
  qmin : ∀ p ∈ qd, MinReach E R start p.1 p.2
  qsorted : List.Pairwise (fun (p q : String × Nat) => p.2 ≤ q.2) qd
  qspan : ∀ p ∈ qd, ∀ q ∈ qd, p.2 ≤ q.2 + 1
  qnodup : (qd.map Prod.fst).Nodup
  vnodup : visited.Nodup
  vstart : start ∈ visited
  tnotv : target ∉ visited
  clos : ∀ v ∈ visited, v ∉ qd.map Prod.fst → ∀ b ∈ nbrsOf E R v,
      b ∈ visited
  pfrom : alistFind parent start = none
  pkeys : ∀ k p, alistFind parent k = some p → k ∈ nbrsOf E R p ∧
      ∃ dk, 1 ≤ dk ∧ MinReach E R start k dk ∧
        MinReach E R start p (dk - 1) ∧
        (p = start ∨ (alistFind parent p).isSome = true)
  vkeys : ∀ v ∈ visited, v ≠ start → (alistFind parent v).isSome = true

/-- A small concrete vault used by witnesses: note A links to B and C. -/
def wPaths : List String := ["A.md", "B.md", "C.md"]

def wFetch : String → Option String :=
  fun p => if p = "A.md" then some "[[B]] [[C]]" else some ""

def wGraph : Graph := buildGraphTotal wPaths wFetch 0

/-- The parent map codes shortest parent chains: no entry for the start,
and every entry points one step closer to the start. -/
def ParentOk (E R : List (String × List String)) (start : String)
    (parent : List (String × String)) : Prop :=
  alistFind parent start = none ∧
  ∀ k p, alistFind parent k = some p → k ∈ nbrsOf E R p ∧
    ∃ dk, 1 ≤ dk ∧ MinReach E R start k dk ∧
      MinReach E R start p (dk - 1) ∧
      (p = start ∨ (alistFind parent p).isSome = true)

theorem dropRun_length_le (p : Char → Bool) (l : List Char) :
    (dropRun p l).length ≤ l.length := by
  induction l with
  | nil => simp [dropRun]
  | cons c cs ih =>
      rw [dropRun]
      by_cases h : p c
      · simp only [h, if_true, List.length_cons]; omega
      · simp [h]

theorem takeRun_append_dropRun (p : Char → Bool) (l : List Char) :
    takeRun p l ++ dropRun p l = l := by
  induction l with
  | nil => simp [takeRun, dropRun]
  | cons c cs ih =>
      rw [takeRun, dropRun]
      by_cases h : p c <;> simp [h, ih]

theorem mem_takeRun {p : Char → Bool} {l : List Char} {c : Char}
    (h : c ∈ takeRun p l) : p c = true := by
  induction l with
  | nil => simp [takeRun] at h
  | cons d ds ih =>
      rw [takeRun] at h
      by_cases hd : p d
      · simp only [hd, if_true, List.mem_cons] at h
        rcases h with rfl | h
        · exact hd
        · exact ih h

      · simp [hd] at h

theorem dropRun_head_not {p : Char → Bool} {l : List Char} {c : Char}
    {cs : List Char} (h : dropRun p l = c :: cs) : p c = false := by
  induction l with
  | nil => simp [dropRun] at h
  | cons d ds ih =>
      rw [dropRun] at h
      by_cases hd : p d
      · rw [if_pos hd] at h; exact ih h
      · rw [if_neg hd] at h
        obtain ⟨rfl, -⟩ := List.cons.injEq .. ▸ h
        exact Bool.eq_false_iff.mpr hd

theorem matchDisplayTail_length {cs r : List Char}
    (h : matchDisplayTail cs = some r) : r.length ≤ cs.length := by
  have hd := dropRun_length_le notRBracket cs
  unfold matchDisplayTail at h
  revert h
  rcases takeRun notRBracket cs with _ | ⟨t, ts⟩
  · intro h; exact absurd h (by simp)
  · rcases hrest : dropRun notRBracket cs with _ | ⟨d, rs⟩
    · intro h; exact absurd h (by simp)
    · rcases rs with _ | ⟨d2, rs2⟩
      · intro h
        rcases Decidable.em (d = ']') with rfl | h1
        · exact absurd h (by simp)
        · exact absurd h (by simp [h1])
      · intro h
        rcases Decidable.em (d = ']') with rfl | h1
        · rcases Decidable.em (d2 = ']') with rfl | h2
          · simp only [Option.some.injEq] at h
            subst h
            rw [hrest] at hd
            simp only [List.length_cons] at hd
            omega
          · exact absurd h (by simp [h2])
        · exact absurd h (by simp [h1])

theorem matchWikilinkBody_length {cs t r : List Char}
    (h : matchWikilinkBody cs = some (t, r)) : r.length ≤ cs.length := by
  have hdrop := dropRun_length_le wikilinkTargetChar cs
  unfold matchWikilinkBody at h
  revert h
  rcases takeRun wikilinkTargetChar cs with _ | ⟨u, us⟩
  · intro h; exact absurd h (by simp)
  · rcases hrest : dropRun wikilinkTargetChar cs with _ | ⟨c, rest'⟩
    · intro h; exact absurd h (by simp)
    · rw [hrest] at hdrop
      simp only [List.length_cons] at hdrop
      intro h
      by_cases hc1 : c = ']'
      · subst hc1
        rcases rest' with _ | ⟨c2, rest2⟩
        · exact absurd h (by simp)
        · by_cases hc2 : c2 = ']'
          · subst hc2
            simp only [Option.some.injEq, Prod.mk.injEq] at h
            obtain ⟨-, rfl⟩ := h
            simp only [List.length_cons] at hdrop
            omega
          · exact absurd h (by simp [hc2])
      · by_cases hc2 : c = '|'
        · subst hc2
          simp only [Option.map_eq_some'] at h
          obtain ⟨r', hr', heq⟩ := h
          simp only [Prod.mk.injEq] at heq
          obtain ⟨-, rfl⟩ := heq
          have := matchDisplayTail_length hr'
          omega
        · by_cases hc3 : c = '#'
          · subst hc3
            simp only [Option.map_eq_some'] at h
            obtain ⟨r', hr', heq⟩ := h
            simp only [Prod.mk.injEq] at heq
            obtain ⟨-, rfl⟩ := heq
            have := matchDisplayTail_length hr'
            omega
          · exact absurd h (by simp [hc1, hc2, hc3])

/-! ### Basic lemmas about the map and set primitives -/

theorem alistFind_set_self {α : Type} (m : List (String × α)) (k : String)
    (v : α) : alistFind (alistSet m k v) k = some v := by
  induction m with
  | nil => simp [alistSet, alistFind]
  | cons e rest ih =>
      rw [alistSet]
      by_cases h : e.1 = k
      · simp [alistFind, h]
      · simp only [h, if_false]
        rw [alistFind, if_neg h]
        exact ih

theorem alistFind_set_ne {α : Type} (m : List (String × α)) {k k' : String}
    (v : α) (h : k ≠ k') : alistFind (alistSet m k v) k' = alistFind m k' := by
  induction m with
  | nil => simp [alistSet, alistFind, h]
  | cons e rest ih =>
      rw [alistSet]
      by_cases he : e.1 = k
      · simp only [he, if_true]
        rw [alistFind, alistFind, if_neg h, he, if_neg (he ▸ h)]
      · simp only [he, if_false]
        rw [alistFind, alistFind]
        by_cases he' : e.1 = k'
        · simp [he']
        · rw [if_neg he', if_neg he']
          exact ih

theorem alistFind_mem {α : Type} {m : List (String × α)} {k : String} {v : α}
    (h : alistFind m k = some v) : (k, v) ∈ m := by
  induction m with
  | nil => simp [alistFind] at h
  | cons e rest ih =>
      obtain ⟨k0, v0⟩ := e
      rw [alistFind] at h
      by_cases he : k0 = k
      · simp only [he, if_true, Option.some.injEq] at h
        subst he; subst h
        exact List.mem_cons_self _ _
      · rw [if_neg (by simpa using he)] at h
        exact List.mem_cons_of_mem _ (ih h)

theorem mem_setAdd {s : List String} {x y : String} :
    x ∈ setAdd s y ↔ x = y ∨ x ∈ s := by
  unfold setAdd
  by_cases h : y ∈ s
  · simp only [h, if_true]
    constructor
    · exact Or.inr
    · rintro (rfl | hx)
      · exact h
      · exact hx
  · simp [h, or_comm]

theorem setAdd_nodup {s : List String} (h : s.Nodup) (y : String) :
    (setAdd s y).Nodup := by
  unfold setAdd
  by_cases hy : y ∈ s
  · rw [if_pos hy]; exact h
  · rw [if_neg hy]
    simp [List.nodup_append, h, hy]

theorem mem_dedupKeepFirst {l : List String} {x : String} :
    x ∈ dedupKeepFirst l ↔ x ∈ l := by
  induction l with
  | nil => simp [dedupKeepFirst]
  | cons y ys ih =>
      rw [dedupKeepFirst]
      simp only [List.mem_cons, List.mem_filter, ih]
      constructor
      · rintro (rfl | ⟨hx, -⟩)
        · exact Or.inl rfl
        · exact Or.inr hx
      · rintro (rfl | hx)
        · exact Or.inl rfl
        · by_cases hxy : x = y
          · exact Or.inl hxy
          · exact Or.inr ⟨hx, by simpa using hxy⟩

theorem nodup_dedupKeepFirst (l : List String) : (dedupKeepFirst l).Nodup := by
  induction l with
  | nil => simp [dedupKeepFirst]
  | cons y ys ih =>
      rw [dedupKeepFirst]
      refine List.Nodup.cons ?_ (List.Nodup.filter _ ih)
      intro hmem
      simp [List.mem_filter] at hmem

theorem alistAddToSet_cons (e : String × List String)
    (rest : List (String × List String)) (k v : String) :
    alistAddToSet (e :: rest) k v =
      (if e.1 = k then (e.1, setAdd e.2 v) else e) :: alistAddToSet rest k v :=
  rfl

theorem alistFind_addToSet (m : List (String × List String)) (k v k' : String) :
    alistFind (alistAddToSet m k v) k' =
      if k' = k then (alistFind m k').map (fun s => setAdd s v)
      else alistFind m k' := by
  induction m with
  | nil => by_cases h : k' = k <;> simp [alistAddToSet, alistFind, h]
  | cons e rest ih =>
      obtain ⟨k0, s0⟩ := e
      rw [alistAddToSet_cons]
      by_cases he : k0 = k
      · subst he
        rw [if_pos rfl]
        by_cases he' : k' = k0
        · subst he'
          simp [alistFind]
        · have hne : ¬(k0 = k') := fun h => he' h.symm
          simp [alistFind, hne, he', ih]
      · simp only [he, if_false]
        by_cases hk0 : k0 = k'
        · subst hk0
          have hne : ¬(k0 = k) := he
          simp [alistFind, fun h => hne (h : k0 = k)]
        · simp [alistFind, hk0, ih]

/-! ### Characterisation of the node-construction loop -/

/-- A fold of keyed `Map.set` calls: the final value under a key comes from
the last list element writing that key, else from the initial map. -/
theorem foldl_alistSet_find {α : Type} (key : String → String)
    (val : String → α) (L : List String) (m₀ : List (String × α)) (n : String) :
    alistFind (L.foldl (fun m p => alistSet m (key p) (val p)) m₀) n =
      match L.reverse.find? (fun p => key p = n) with
      | some p => some (val p)
      | none => alistFind m₀ n := by
  induction L generalizing m₀ with
  | nil => simp
  | cons p rest ih =>
      rw [List.foldl_cons, ih, List.reverse_cons, List.find?_append]
      rcases hf : rest.reverse.find? (fun p => key p = n) with - | q
      · by_cases hp : key p = n
        · simp only [List.find?_singleton, hp, decide_true_eq_true, if_true,
            Option.none_or]
          subst hp
          exact alistFind_set_self _ _ _
        · simp only [List.find?_singleton, hp, decide_eq_true_eq, if_neg hp,
            Option.none_or]
          exact alistFind_set_ne _ _ hp
      · rfl

/-- The nested-pair fold of `buildNodeMaps` splits into three independent
folds over the same path list. -/
theorem foldl_triple_split (paths : List String) (nc : List (String × String))
    (a : List (String × GraphNode)) (b c : List (String × List String)) :
    paths.foldl
      (fun s p =>
        (alistSet s.1 (nameFromPath p) (mkNode p ((alistFind nc p).getD "")),
         alistSet s.2.1 (nameFromPath p) [],
         alistSet s.2.2 (nameFromPath p) []))
      (a, b, c) =
      (paths.foldl (fun m p => alistSet m (nameFromPath p)
          (mkNode p ((alistFind nc p).getD ""))) a,
       paths.foldl (fun m p => alistSet m (nameFromPath p) []) b,
       paths.foldl (fun m p => alistSet m (nameFromPath p) []) c) := by
  induction paths generalizing a b c with
  | nil => rfl
  | cons p rest ih => exact ih _ _ _

theorem buildNodeMaps_eq (paths : List String) (nc : List (String × String)) :
    buildNodeMaps paths nc =
      (paths.foldl (fun m p => alistSet m (nameFromPath p)
          (mkNode p ((alistFind nc p).getD ""))) [],
       paths.foldl (fun m p => alistSet m (nameFromPath p) []) [],
       paths.foldl (fun m p => alistSet m (nameFromPath p) []) []) :=
  foldl_triple_split paths nc [] [] []

theorem buildGraphTotal_nodes (paths : List String)
    (fetch : String → Option String) (now : Nat) :
    (buildGraphTotal paths fetch now).nodes =
      (buildNodeMaps paths (buildNoteContents paths fetch)).1 :=
  rfl

/-- The node stored under a name is the one built from the last listed path
deriving that name (later writes overwrite earlier ones). -/
theorem nodes_find_eq (paths : List String) (fetch : String → Option String)
    (now : Nat) (n : String) :
    alistFind (buildGraphTotal paths fetch now).nodes n =
      (paths.reverse.find? (fun p => nameFromPath p = n)).map
        (fun p => mkNode p
          ((alistFind (buildNoteContents paths fetch) p).getD "")) := by
  rw [buildGraphTotal_nodes, buildNodeMaps_eq]
  dsimp only
  rw [foldl_alistSet_find]
  rcases paths.reverse.find? (fun p => nameFromPath p = n) with - | q <;>
    simp [alistFind]

/-- A name is a node key exactly when some listed path derives it. -/
theorem nodes_isSome_iff (paths : List String) (fetch : String → Option String)
    (now : Nat) (n : String) :
    (alistFind (buildGraphTotal paths fetch now).nodes n).isSome = true ↔
      ∃ p ∈ paths, nameFromPath p = n := by
  rw [nodes_find_eq]
  rcases hf : paths.reverse.find? (fun p => nameFromPath p = n) with - | q
  · simp only [Option.map_none', Option.isSome_none, Bool.false_eq_true,
      false_iff]
    rintro ⟨p, hp, hname⟩
    have hmem : p ∈ paths.reverse := List.mem_reverse.mpr hp
    have hnone := List.find?_eq_none.mp hf p hmem
    exact hnone (decide_eq_true hname)
  · simp only [Option.map_some', Option.isSome_some, true_iff]
    have hq := List.find?_some hf
    have hqm := List.mem_reverse.mp (List.mem_of_find?_eq_some hf)
    exact ⟨q, hqm, of_decide_eq_true hq⟩

theorem inner_fold_split (nodes : List (String × GraphNode)) (src : String)
    (links : List String) (E R : List (String × List String)) :
    links.foldl
      (fun t target =>
        if (alistFind nodes target).isSome then
          (alistAddToSet t.1 src target,
           alistAddToSet
             (if (alistFind t.2 target).isSome then t.2
              else alistSet t.2 target [])
             target src)
        else t)
      (E, R) =
    (links.foldl (edgeStepE nodes src) E, links.foldl (edgeStepR nodes src) R) := by
  induction links generalizing E R with
  | nil => rfl
  | cons t rest ih =>
      rw [List.foldl_cons, List.foldl_cons, List.foldl_cons]
      by_cases h : (alistFind nodes t).isSome
      · simp only [h, if_true, edgeStepE, edgeStepR]
        exact ih _ _
      · simp only [h, Bool.false_eq_true, if_false, edgeStepE, edgeStepR]
        exact ih _ _

theorem buildEdgeMaps_split (L : List (String × String))
    (nodes : List (String × GraphNode)) (E R : List (String × List String)) :
    buildEdgeMaps L nodes (E, R) =
      (L.foldl
        (fun E pc =>
          (parseWikilinks pc.2).foldl (edgeStepE nodes (nameFromPath pc.1)) E)
        E,
       L.foldl
        (fun R pc =>
          (parseWikilinks pc.2).foldl (edgeStepR nodes (nameFromPath pc.1)) R)
        R) := by
  induction L generalizing E R with
  | nil => rfl
  | cons pc rest ih =>
      show buildEdgeMaps rest nodes _ = _
      rw [List.foldl_cons, List.foldl_cons]
      dsimp only
      rw [inner_fold_split]
      exact ih _ _

/-- Membership in `addKnownLinks`: the original members plus every known
target among the links. -/
theorem mem_addKnownLinks (nodes : List (String × GraphNode))
    (links : List String) (s : List String) (t : String) :
    t ∈ addKnownLinks nodes s links ↔
      t ∈ s ∨ (t ∈ links ∧ (alistFind nodes t).isSome = true) := by
  induction links generalizing s with
  | nil => simp [addKnownLinks]
  | cons u rest ih =>
      show t ∈ addKnownLinks nodes _ rest ↔ _
      by_cases h : (alistFind nodes u).isSome
      · simp only [h, if_true, ih, mem_setAdd, List.mem_cons]
        constructor
        · rintro ((rfl | hs) | hr)
          · exact Or.inr ⟨Or.inl rfl, h⟩
          · exact Or.inl hs
          · exact Or.inr ⟨Or.inr hr.1, hr.2⟩
        · rintro (hs | ⟨rfl | hr, hk⟩)
          · exact Or.inl (Or.inr hs)
          · exact Or.inl (Or.inl rfl)
          · exact Or.inr ⟨hr, hk⟩
      · simp only [h, Bool.false_eq_true, if_false, ih, List.mem_cons]
        constructor
        · rintro (hs | hr)
          · exact Or.inl hs
          · exact Or.inr ⟨Or.inr hr.1, hr.2⟩
        · rintro (hs | ⟨rfl | hr, hk⟩)
          · exact Or.inl hs
          · exact absurd hk (by simpa using h)
          · exact Or.inr ⟨hr, hk⟩

theorem addKnownLinks_cons (nodes : List (String × GraphNode))
    (s : List String) (t : String) (rest : List String) :
    addKnownLinks nodes s (t :: rest) =
      addKnownLinks nodes
        (if (alistFind nodes t).isSome then setAdd s t else s) rest :=
  rfl

/-- The forward-edge map after one document's links: only the source's
entry changes, by adding all known targets. -/
theorem find_estep_fold (nodes : List (String × GraphNode)) (src : String)
    (links : List String) (k : String) (E : List (String × List String)) :
    alistFind (links.foldl (edgeStepE nodes src) E) k =
      if src = k then
        (alistFind E k).map (fun s => addKnownLinks nodes s links)
      else alistFind E k := by
  induction links generalizing E with
  | nil =>
      by_cases h : src = k
      · simp [h, addKnownLinks]
      · simp [h]
  | cons t rest ih =>
      rw [List.foldl_cons, ih]
      unfold edgeStepE
      by_cases hk : (alistFind nodes t).isSome
      · rw [if_pos hk]
        by_cases hsrc : src = k
        · subst hsrc
          rw [if_pos rfl, if_pos rfl, alistFind_addToSet, if_pos rfl,
            Option.map_map]
          congr 1
          funext s
          show addKnownLinks nodes (setAdd s t) rest = addKnownLinks nodes s (t :: rest)
          rw [addKnownLinks_cons, if_pos hk]
        · rw [if_neg hsrc, if_neg hsrc, alistFind_addToSet,
            if_neg (fun h => hsrc h.symm)]
      · rw [if_neg hk]
        by_cases hsrc : src = k
        · subst hsrc
          rw [if_pos rfl, if_pos rfl]
          congr 1
          funext s
          show addKnownLinks nodes s rest = addKnownLinks nodes s (t :: rest)
          rw [addKnownLinks_cons, if_neg hk]
        · rw [if_neg hsrc, if_neg hsrc]

theorem option_map_congr {α β : Type} {f g : α → β} {o : Option α}
    (h : ∀ a, f a = g a) : o.map f = o.map g := by
  cases o <;> simp [h]

/-- The forward-edge map over the whole content list: each entry collects,
in content order, the known targets of the documents whose derived name is
that entry's key. -/
theorem find_efold (nodes : List (String × GraphNode))
    (L : List (String × String)) (k : String)
    (E : List (String × List String)) :
    alistFind
      (L.foldl
        (fun E pc =>
          (parseWikilinks pc.2).foldl (edgeStepE nodes (nameFromPath pc.1)) E)
        E) k =
      (alistFind E k).map
        (fun s =>
          L.foldl
            (fun s pc =>
              if nameFromPath pc.1 = k then
                addKnownLinks nodes s (parseWikilinks pc.2)
              else s)
            s) := by
  induction L generalizing E with
  | nil => simp
  | cons pc rest ih =>
      rw [List.foldl_cons, ih, find_estep_fold]
      by_cases h : nameFromPath pc.1 = k
      · rw [if_pos h, Option.map_map]
        refine option_map_congr (fun s => ?_)
        rw [Function.comp_apply, List.foldl_cons]
        rw [if_pos h]
      · rw [if_neg h]
        refine option_map_congr (fun s => ?_)
        rw [List.foldl_cons]
        rw [if_neg h]

/-! ### Facts about the fetched-content map -/

theorem mem_alistSet {α : Type} {m : List (String × α)} {k : String} {v : α}
    {e : String × α} (h : e ∈ alistSet m k v) : e ∈ m ∨ e = (k, v) := by
  induction m with
  | nil => simpa [alistSet] using h
  | cons e0 rest ih =>
      rw [alistSet] at h
      by_cases he : e0.1 = k
      · rw [if_pos he] at h
        rcases List.mem_cons.mp h with rfl | h
        · exact Or.inr rfl
        · exact Or.inl (List.mem_cons_of_mem _ h)
      · rw [if_neg he] at h
        rcases List.mem_cons.mp h with rfl | h
        · exact Or.inl (List.mem_cons_self _ _)
        · rcases ih h with h | h
          · exact Or.inl (List.mem_cons_of_mem _ h)
          · exact Or.inr h

/-- Every entry of the content map is a listed path with its fetched
content. -/
theorem buildNoteContents_mem (paths : List String)
    (fetch : String → Option String) :
    ∀ pc ∈ buildNoteContents paths fetch,
      pc.1 ∈ paths ∧ fetch pc.1 = some pc.2 := by
  unfold buildNoteContents
  suffices h : ∀ (L : List String) (m₀ : List (String × String)),
      (∀ p ∈ L, p ∈ paths) →
      (∀ pc ∈ m₀, pc.1 ∈ paths ∧ fetch pc.1 = some pc.2) →
      ∀ pc ∈ L.foldl
        (fun m p => match fetch p with | some c => alistSet m p c | none => m)
        m₀, pc.1 ∈ paths ∧ fetch pc.1 = some pc.2 by
    exact h paths [] (fun p hp => hp) (by simp)
  intro L
  induction L with
  | nil => intro m₀ _ hm pc hpc; exact hm pc hpc
  | cons q rest ih =>
      intro m₀ hL hm pc hpc
      rw [List.foldl_cons] at hpc
      refine ih _ (fun p hp => hL p (List.mem_cons_of_mem _ hp)) ?_ pc hpc
      intro pc' hpc'
      rcases hq : fetch q with - | c
      · rw [hq] at hpc'
        exact hm pc' hpc'
      · rw [hq] at hpc'
        rcases mem_alistSet hpc' with h | rfl
        · exact hm pc' h
        · exact ⟨hL q (List.mem_cons_self _ _), hq⟩

theorem buildNoteContents_find_some (paths : List String)
    (fetch : String → Option String) {p : String} {c : String}
    (hp : p ∈ paths) (hc : fetch p = some c) :
    alistFind (buildNoteContents paths fetch) p = some c := by
  unfold buildNoteContents
  suffices h : ∀ (L : List String) (m₀ : List (String × String)),
      alistFind m₀ p = some c ∨ p ∈ L →
      alistFind (L.foldl
        (fun m p => match fetch p with | some c => alistSet m p c | none => m)
        m₀) p = some c by
    exact h paths [] (Or.inr hp)
  intro L
  induction L with
  | nil =>
      rintro m₀ (h | h)
      · exact h
      · simp at h
  | cons q rest ih =>
      rintro m₀ (h | h)
      · rw [List.foldl_cons]
        refine ih _ (Or.inl ?_)
        rcases hq : fetch q with - | c'
        · exact h
        · by_cases hpq : q = p
          · subst hpq
            rw [hq] at hc
            obtain rfl := Option.some.injEq .. ▸ hc
            exact alistFind_set_self _ _ _
          · rw [alistFind_set_ne _ _ hpq]
            exact h
      · rcases List.mem_cons.mp h with rfl | hrest
        · rw [List.foldl_cons, hc]
          exact ih _ (Or.inl (alistFind_set_self _ _ _))
        · rw [List.foldl_cons]
          exact ih _ (Or.inr hrest)

/-- A failed fetch leaves no content entry. -/
theorem buildNoteContents_find_none (paths : List String)
    (fetch : String → Option String) {p : String}
    (hc : fetch p = none) :
    alistFind (buildNoteContents paths fetch) p = none := by
  rcases hf : alistFind (buildNoteContents paths fetch) p with - | c
  · rfl
  · have := (buildNoteContents_mem paths fetch _ (alistFind_mem hf)).2
    rw [hc] at this
    simp at this

theorem buildNoteContents_keys_nodup (paths : List String)
    (fetch : String → Option String) :
    ((buildNoteContents paths fetch).map Prod.fst).Nodup := by
  unfold buildNoteContents
  suffices h : ∀ (L : List String) (m₀ : List (String × String)),
      (m₀.map Prod.fst).Nodup →
      ((L.foldl
        (fun m p => match fetch p with | some c => alistSet m p c | none => m)
        m₀).map Prod.fst).Nodup by
    exact h paths [] (by simp)
  have hset : ∀ (m : List (String × String)) (k v : String),
      (m.map Prod.fst).Nodup → ((alistSet m k v).map Prod.fst).Nodup := by
    intro m k v hm
    induction m with
    | nil => simp [alistSet]
    | cons e rest ih =>
        rw [alistSet]
        by_cases he : e.1 = k
        · rw [if_pos he]
          simp only [List.map_cons, List.nodup_cons] at hm ⊢
          exact ⟨he ▸ hm.1, hm.2⟩
        · rw [if_neg he]
          simp only [List.map_cons, List.nodup_cons] at hm ⊢
          refine ⟨?_, ih hm.2⟩
          intro hmem
          have : ∀ k', k' ∈ (alistSet rest k v).map Prod.fst →
              k' = k ∨ k' ∈ rest.map Prod.fst := by
            intro k' hk'
            obtain ⟨e', he', rfl⟩ := List.mem_map.mp hk'
            rcases mem_alistSet he' with h | rfl
            · exact Or.inr (List.mem_map_of_mem _ h)
            · exact Or.inl rfl
          rcases this _ hmem with rfl | h
          · exact he rfl
          · exact hm.1 h
  intro L
  induction L with
  | nil => intro m₀ hm; exact hm
  | cons q rest ih =>
      intro m₀ hm
      rw [List.foldl_cons]
      rcases hq : fetch q with - | c
      · exact ih _ hm
      · exact ih _ (hset _ _ _ hm)

/-! ### The reverse-edge map through the edge loop -/

theorem rstep_mono (nodes : List (String × GraphNode)) (src : String)
    (R : List (String × List String)) (t k x : String)
    (h : x ∈ (alistFind R k).getD []) :
    x ∈ (alistFind (edgeStepR nodes src R t) k).getD [] := by
  unfold edgeStepR
  by_cases hk : (alistFind nodes t).isSome
  · rw [if_pos hk, alistFind_addToSet]
    by_cases hkt : k = t
    · subst hkt
      rw [if_pos rfl]
      rcases hR : alistFind R k with - | s
      · rw [hR] at h
        simp at h
      · simp only [Option.isSome_some, eq_self_iff_true, if_true]
        rw [hR] at h ⊢
        simp only [Option.getD_some] at h
        simp only [Option.map_some', Option.getD_some]
        exact mem_setAdd.mpr (Or.inr h)
    · rw [if_neg hkt]
      by_cases hR : (alistFind R t).isSome
      · rw [if_pos hR]
        exact h
      · rw [if_neg hR, alistFind_set_ne _ _ (fun he => hkt he.symm)]
        exact h
  · rw [if_neg hk]
    exact h

theorem rstep_fold_mono (nodes : List (String × GraphNode)) (src : String)
    (links : List String) :
    ∀ (R : List (String × List String)) (k x : String),
      x ∈ (alistFind R k).getD [] →
      x ∈ (alistFind (links.foldl (edgeStepR nodes src) R) k).getD [] := by
  induction links with
  | nil => intro R k x h; exact h
  | cons u rest ih =>
      intro R k x h
      rw [List.foldl_cons]
      exact ih _ _ _ (rstep_mono nodes src R u k x h)

theorem rfold_mono (nodes : List (String × GraphNode))
    (L : List (String × String)) :
    ∀ (R : List (String × List String)) (k x : String),
      x ∈ (alistFind R k).getD [] →
      x ∈ (alistFind
        (L.foldl
          (fun R pc =>
            (parseWikilinks pc.2).foldl (edgeStepR nodes (nameFromPath pc.1)) R)
          R) k).getD [] := by
  induction L with
  | nil => intro R k x h; exact h
  | cons pc rest ih =>
      intro R k x h
      rw [List.foldl_cons]
      exact ih _ _ _ (rstep_fold_mono nodes _ _ _ _ _ h)

theorem rstep_fold_insert (nodes : List (String × GraphNode)) (src : String)
    (links : List String) (t : String) (ht : t ∈ links)
    (hk : (alistFind nodes t).isSome) :
    ∀ R : List (String × List String),
      src ∈ (alistFind (links.foldl (edgeStepR nodes src) R) t).getD [] := by
  induction links with
  | nil => simp at ht
  | cons u rest ih =>
      intro R
      rw [List.foldl_cons]
      by_cases hu : u = t
      · subst hu
        apply rstep_fold_mono
        unfold edgeStepR
        rw [if_pos hk, alistFind_addToSet, if_pos rfl]
        rcases hR : alistFind R u with - | s
        · rw [if_neg (by simp), alistFind_set_self]
          simp [setAdd]
        · simp only [Option.isSome_some, eq_self_iff_true, if_true]
          rw [hR]
          simp [mem_setAdd]
      · rcases List.mem_cons.mp ht with rfl | hrest
        · exact absurd rfl hu
        · exact ih hrest _

theorem rfold_insert (nodes : List (String × GraphNode))
    (L : List (String × String)) (D c t : String) (hDc : (D, c) ∈ L)
    (ht : t ∈ parseWikilinks c) (hk : (alistFind nodes t).isSome) :
    ∀ R : List (String × List String),
      nameFromPath D ∈
        (alistFind
          (L.foldl
            (fun R pc =>
              (parseWikilinks pc.2).foldl (edgeStepR nodes (nameFromPath pc.1))
                R)
            R) t).getD [] := by
  induction L with
  | nil => simp at hDc
  | cons pc rest ih =>
      intro R
      rw [List.foldl_cons]
      rcases List.mem_cons.mp hDc with rfl | hrest
      · apply rfold_mono
        exact rstep_fold_insert nodes _ _ t ht hk _
      · exact ih hrest _

theorem rstep_mem_elim (nodes : List (String × GraphNode)) (src : String)
    (R : List (String × List String)) (t k x : String)
    (h : x ∈ (alistFind (edgeStepR nodes src R t) k).getD []) :
    x ∈ (alistFind R k).getD [] ∨ x = src := by
  unfold edgeStepR at h
  by_cases hk : (alistFind nodes t).isSome
  · rw [if_pos hk, alistFind_addToSet] at h
    by_cases hkt : k = t
    · subst hkt
      rw [if_pos rfl] at h
      rcases hR : alistFind R k with - | s
      · rw [if_neg (by simp [hR]), alistFind_set_self] at h
        simp only [Option.map_some', Option.getD_some] at h
        rcases mem_setAdd.mp h with rfl | hmem
        · exact Or.inr rfl
        · simp at hmem
      · rw [hR] at h
        simp only [Option.isSome_some, eq_self_iff_true, if_true] at h
        rw [hR] at h
        simp only [Option.map_some', Option.getD_some] at h
        rcases mem_setAdd.mp h with rfl | hmem
        · exact Or.inr rfl
        · simp only [Option.getD_some]
          exact Or.inl hmem
    · rw [if_neg hkt] at h
      by_cases hR : (alistFind R t).isSome
      · rw [if_pos hR] at h
        exact Or.inl h
      · rw [if_neg hR, alistFind_set_ne _ _ (fun he => hkt he.symm)] at h
        exact Or.inl h
  · rw [if_neg hk] at h
    exact Or.inl h

theorem rstep_fold_elim (nodes : List (String × GraphNode)) (src : String)
    (links : List String) :
    ∀ (R : List (String × List String)) (k x : String),
      x ∈ (alistFind (links.foldl (edgeStepR nodes src) R) k).getD [] →
      x ∈ (alistFind R k).getD [] ∨ x = src := by
  induction links with
  | nil => intro R k x h; exact Or.inl h
  | cons u rest ih =>
      intro R k x h
      rw [List.foldl_cons] at h
      rcases ih _ _ _ h with h' | rfl
      · exact rstep_mem_elim nodes src R u k x h'
      · exact Or.inr rfl

theorem rfold_safe (nodes : List (String × GraphNode))
    (L : List (String × String))
    (hsrc : ∀ pc ∈ L, (alistFind nodes (nameFromPath pc.1)).isSome = true) :
    ∀ R : List (String × List String),
      (∀ k x, x ∈ (alistFind R k).getD [] →
        (alistFind nodes x).isSome = true) →
      ∀ k x,
        x ∈ (alistFind
          (L.foldl
            (fun R pc =>
              (parseWikilinks pc.2).foldl (edgeStepR nodes (nameFromPath pc.1))
                R)
            R) k).getD [] →
        (alistFind nodes x).isSome = true := by
  induction L with
  | nil => intro R hR k x h; exact hR k x h
  | cons pc rest ih =>
      intro R hR k x h
      rw [List.foldl_cons] at h
      refine ih (fun pc' hpc' => hsrc pc' (List.mem_cons_of_mem _ hpc')) _
        ?_ k x h
      intro k' x' h'
      rcases rstep_fold_elim nodes _ _ _ _ _ h' with h'' | rfl
      · exact hR k' x' h''
      · exact hsrc pc (List.mem_cons_self _ _)

theorem rstep_isSome (nodes : List (String × GraphNode)) (src : String)
    (R : List (String × List String)) (t k : String)
    (h : (alistFind R k).isSome = true) :
    (alistFind (edgeStepR nodes src R t) k).isSome = true := by
  unfold edgeStepR
  by_cases hk : (alistFind nodes t).isSome
  · rw [if_pos hk, alistFind_addToSet]
    by_cases hkt : k = t
    · subst hkt
      rw [if_pos rfl]
      rcases hR : alistFind R k with - | s
      · rw [if_neg (by simp), alistFind_set_self]
        rfl
      · simp only [Option.isSome_some, eq_self_iff_true, if_true]
        rw [hR]
        rfl
    · rw [if_neg hkt]
      by_cases hR : (alistFind R t).isSome
      · rw [if_pos hR]; exact h
      · rw [if_neg hR, alistFind_set_ne _ _ (fun he => hkt he.symm)]
        exact h
  · rw [if_neg hk]; exact h

theorem rstep_fold_isSome (nodes : List (String × GraphNode)) (src : String)
    (links : List String) :
    ∀ (R : List (String × List String)) (k : String),
      (alistFind R k).isSome = true →
      (alistFind (links.foldl (edgeStepR nodes src) R) k).isSome = true := by
  induction links with
  | nil => intro R k h; exact h
  | cons u rest ih =>
      intro R k h
      rw [List.foldl_cons]
      exact ih _ _ (rstep_isSome nodes src R u k h)

theorem rfold_isSome (nodes : List (String × GraphNode))
    (L : List (String × String)) :
    ∀ (R : List (String × List String)) (k : String),
      (alistFind R k).isSome = true →
      (alistFind
        (L.foldl
          (fun R pc =>
            (parseWikilinks pc.2).foldl (edgeStepR nodes (nameFromPath pc.1)) R)
          R) k).isSome = true := by
  induction L with
  | nil => intro R k h; exact h
  | cons pc rest ih =>
      intro R k h
      rw [List.foldl_cons]
      exact ih _ _ (rstep_fold_isSome nodes _ _ _ _ h)

/-- Members accumulated by the forward-edge fold are initial members or
known nodes. -/
theorem efold_members (nodes : List (String × GraphNode))
    (L : List (String × String)) (k : String) :
    ∀ (s₀ : List String) (x : String),
      x ∈ L.foldl
        (fun s pc =>
          if nameFromPath pc.1 = k then
            addKnownLinks nodes s (parseWikilinks pc.2)
          else s)
        s₀ →
      x ∈ s₀ ∨ (alistFind nodes x).isSome = true := by
  induction L with
  | nil => intro s₀ x h; exact Or.inl h
  | cons pc rest ih =>
      intro s₀ x h
      rw [List.foldl_cons] at h
      rcases ih _ _ h with h' | h'
      · by_cases hname : nameFromPath pc.1 = k
        · rw [if_pos hname] at h'
          rcases (mem_addKnownLinks nodes _ _ _).mp h' with h'' | h''
          · exact Or.inl h''
          · exact Or.inr h''.2
        · rw [if_neg hname] at h'
          exact Or.inl h'
      · exact Or.inr h'

/-! ### Graph-level characterisations -/

theorem buildGraphTotal_edges (paths : List String)
    (fetch : String → Option String) (now : Nat) :
    (buildGraphTotal paths fetch now).edges =
      (buildEdgeMaps (buildNoteContents paths fetch)
        (buildNodeMaps paths (buildNoteContents paths fetch)).1
        ((buildNodeMaps paths (buildNoteContents paths fetch)).2.1,
         (buildNodeMaps paths (buildNoteContents paths fetch)).2.2)).1 :=
  rfl

theorem buildGraphTotal_reverseEdges (paths : List String)
    (fetch : String → Option String) (now : Nat) :
    (buildGraphTotal paths fetch now).reverseEdges =
      (buildEdgeMaps (buildNoteContents paths fetch)
        (buildNodeMaps paths (buildNoteContents paths fetch)).1
        ((buildNodeMaps paths (buildNoteContents paths fetch)).2.1,
         (buildNodeMaps paths (buildNoteContents paths fetch)).2.2)).2 :=
  rfl

theorem graph_edges_find (paths : List String)
    (fetch : String → Option String) (now : Nat) (k : String) :
    alistFind (buildGraphTotal paths fetch now).edges k =
      (alistFind (buildNodeMaps paths (buildNoteContents paths fetch)).2.1
          k).map
        (fun s =>
          (buildNoteContents paths fetch).foldl
            (fun s pc =>
              if nameFromPath pc.1 = k then
                addKnownLinks
                  (buildNodeMaps paths (buildNoteContents paths fetch)).1 s
                  (parseWikilinks pc.2)
              else s)
            s) := by
  rw [buildGraphTotal_edges, buildEdgeMaps_split]
  exact find_efold _ _ _ _

theorem graph_reverseEdges_eq (paths : List String)
    (fetch : String → Option String) (now : Nat) :
    (buildGraphTotal paths fetch now).reverseEdges =
      (buildNoteContents paths fetch).foldl
        (fun R pc =>
          (parseWikilinks pc.2).foldl
            (edgeStepR (buildNodeMaps paths (buildNoteContents paths fetch)).1
              (nameFromPath pc.1))
            R)
        (buildNodeMaps paths (buildNoteContents paths fetch)).2.2 := by
  rw [buildGraphTotal_reverseEdges, buildEdgeMaps_split]

theorem initAdj_find (paths : List String) (k : String) :
    alistFind
      (paths.foldl
        (fun m p => alistSet m (nameFromPath p) ([] : List String)) []) k =
      match paths.reverse.find? (fun p => nameFromPath p = k) with
      | some _ => some []
      | none => none := by
  rw [foldl_alistSet_find (fun p => nameFromPath p)
    (fun _ => ([] : List String)) paths [] k]
  rcases paths.reverse.find? (fun p => nameFromPath p = k) with - | q <;>
    simp [alistFind]

theorem initAdj_isSome_iff (paths : List String) (k : String) :
    (alistFind
      (paths.foldl
        (fun m p => alistSet m (nameFromPath p) ([] : List String)) [])
      k).isSome = true ↔ ∃ p ∈ paths, nameFromPath p = k := by
  rw [initAdj_find]
  rcases hf : paths.reverse.find? (fun p => nameFromPath p = k) with - | q
  · simp only [Option.isSome_none, Bool.false_eq_true, false_iff]
    rintro ⟨p, hp, hname⟩
    exact List.find?_eq_none.mp hf p (List.mem_reverse.mpr hp)
      (decide_eq_true hname)
  · simp only [Option.isSome_some, true_iff]
    refine ⟨q, List.mem_reverse.mp (List.mem_of_find?_eq_some hf), ?_⟩
    have hq := @List.find?_some _ (fun p => decide (nameFromPath p = k)) q
      paths.reverse hf
    exact of_decide_eq_true hq

/-- A fold of the forward-edge collection over contents with no document of
the relevant name leaves the set unchanged. -/
theorem efold_id (nodes : List (String × GraphNode))
    (L : List (String × String)) (k : String)
    (hnone : ∀ pc ∈ L, ¬nameFromPath pc.1 = k) :
    ∀ s₀ : List String,
      L.foldl
        (fun s pc =>
          if nameFromPath pc.1 = k then
            addKnownLinks nodes s (parseWikilinks pc.2)
          else s)
        s₀ = s₀ := by
  induction L with
  | nil => intro s₀; rfl
  | cons pc rest ih =>
      intro s₀
      rw [List.foldl_cons, if_neg (hnone pc (List.mem_cons_self _ _))]
      exact ih (fun pc' h => hnone pc' (List.mem_cons_of_mem _ h)) s₀

/-- When exactly one content entry carries the relevant name, the
forward-edge fold reduces to that document's known links. -/
theorem efold_single (nodes : List (String × GraphNode))
    (L : List (String × String)) (k D c : String)
    (hkeys : (L.map Prod.fst).Nodup) (hmem : (D, c) ∈ L)
    (hname : nameFromPath D = k)
    (honly : ∀ pc ∈ L, nameFromPath pc.1 = k → pc.1 = D) :
    ∀ s₀ : List String,
      L.foldl
        (fun s pc =>
          if nameFromPath pc.1 = k then
            addKnownLinks nodes s (parseWikilinks pc.2)
          else s)
        s₀ = addKnownLinks nodes s₀ (parseWikilinks c) := by
  induction L with
  | nil => simp at hmem
  | cons pc rest ih =>
      intro s₀
      simp only [List.map_cons, List.nodup_cons] at hkeys
      rcases List.mem_cons.mp hmem with heq | hrest
      · obtain rfl := heq.symm
        rw [List.foldl_cons, if_pos hname]
        refine efold_id nodes rest k ?_ _
        intro pc' hpc' hname'
        have hD := honly pc' (List.mem_cons_of_mem _ hpc') hname'
        have hmm : pc'.1 ∈ rest.map Prod.fst :=
          List.mem_map_of_mem Prod.fst hpc'
        rw [hD] at hmm
        exact absurd hmm hkeys.1
      · have hguard : ¬nameFromPath pc.1 = k := by
          intro hname'
          have hD := honly pc (List.mem_cons_self _ _) hname'
          have hmm : D ∈ rest.map Prod.fst :=
            List.mem_map_of_mem Prod.fst hrest
          rw [← hD] at hmm
          exact hkeys.1 hmm
        rw [List.foldl_cons, if_neg hguard]
        exact ih hkeys.2 hrest
          (fun pc' h => honly pc' (List.mem_cons_of_mem _ h)) s₀

theorem initAdj_value {paths : List String} {k : String} {s : List String}
    (h : alistFind
      (paths.foldl
        (fun m p => alistSet m (nameFromPath p) ([] : List String)) []) k =
      some s) : s = [] := by
  rw [initAdj_find] at h
  revert h
  rcases paths.reverse.find? (fun p => nameFromPath p = k) with - | q
  · intro h; exact Option.noConfusion h
  · intro h
    injection h with h'
    exact h'.symm

/-- The forward-edge entry of a uniquely-named, successfully fetched
document: exactly its known targets. -/
theorem graph_edges_find_unique (paths : List String)
    (fetch : String → Option String) (now : Nat) {p c : String}
    (hp : p ∈ paths) (hc : fetch p = some c)
    (huniq : ∀ q ∈ paths, nameFromPath q = nameFromPath p → q = p) :
    alistFind (buildGraphTotal paths fetch now).edges (nameFromPath p) =
      some (addKnownLinks (buildGraphTotal paths fetch now).nodes []
        (parseWikilinks c)) := by
  have hinit : alistFind
      (buildNodeMaps paths (buildNoteContents paths fetch)).2.1
      (nameFromPath p) = some [] := by
    rw [buildNodeMaps_eq]
    show alistFind
      (paths.foldl
        (fun m p => alistSet m (nameFromPath p) ([] : List String)) []) _ = _
    have hs := (initAdj_isSome_iff paths (nameFromPath p)).mpr ⟨p, hp, rfl⟩
    rw [initAdj_find] at hs ⊢
    revert hs
    rcases paths.reverse.find? (fun q => nameFromPath q = nameFromPath p)
      with - | q
    · intro hs; exact absurd hs (by simp)
    · intro hs; rfl
  rw [graph_edges_find, hinit]
  refine congrArg some ?_
  have hkeys := buildNoteContents_keys_nodup paths fetch
  have hmem : (p, c) ∈ buildNoteContents paths fetch :=
    alistFind_mem (buildNoteContents_find_some paths fetch hp hc)
  have honly : ∀ pc ∈ buildNoteContents paths fetch,
      nameFromPath pc.1 = nameFromPath p → pc.1 = p := by
    intro pc hpc hname
    exact huniq pc.1 (buildNoteContents_mem paths fetch pc hpc).1 hname
  exact efold_single _ _ _ p c hkeys hmem rfl honly []

/-- Every member of a forward-edge set is a known node name. -/
theorem graph_edges_safe (paths : List String)
    (fetch : String → Option String) (now : Nat) :
    ∀ n s, alistFind (buildGraphTotal paths fetch now).edges n = some s →
      ∀ x ∈ s,
        (alistFind (buildGraphTotal paths fetch now).nodes x).isSome = true := by
  intro n s hs x hx
  rw [graph_edges_find] at hs
  rcases hinit : alistFind
      (buildNodeMaps paths (buildNoteContents paths fetch)).2.1 n with - | s₀
  · rw [hinit, Option.map_none'] at hs
    exact Option.noConfusion hs
  · rw [hinit] at hs
    simp only [Option.map_some', Option.some.injEq] at hs
    subst hs
    have h0 : s₀ = [] := by
      have : alistFind
          (paths.foldl
            (fun m p => alistSet m (nameFromPath p) ([] : List String)) []) n =
          some s₀ := by
        rw [← hinit, buildNodeMaps_eq]
      exact initAdj_value this
    subst h0
    rcases efold_members _ _ _ _ _ hx with h | h
    · simp at h
    · exact h

/-- Every member of a reverse-edge set is a known node name. -/
theorem graph_reverse_safe (paths : List String)
    (fetch : String → Option String) (now : Nat) :
    ∀ n s,
      alistFind (buildGraphTotal paths fetch now).reverseEdges n = some s →
      ∀ x ∈ s,
        (alistFind (buildGraphTotal paths fetch now).nodes x).isSome = true := by
  intro n s hs x hx
  have hx' : x ∈ (alistFind
      (buildGraphTotal paths fetch now).reverseEdges n).getD [] := by
    rw [hs]; exact hx
  rw [graph_reverseEdges_eq] at hx'
  refine rfold_safe _ _ ?_ _ ?_ n x hx'
  · intro pc hpc
    have hmem := buildNoteContents_mem paths fetch pc hpc
    show (alistFind (buildNodeMaps paths (buildNoteContents paths fetch)).1
      (nameFromPath pc.1)).isSome = true
    have := (nodes_isSome_iff paths fetch now (nameFromPath pc.1)).mpr
      ⟨pc.1, hmem.1, rfl⟩
    rwa [buildGraphTotal_nodes] at this
  · intro k x' hx''
    have : alistFind
        (paths.foldl
          (fun m p => alistSet m (nameFromPath p) ([] : List String)) []) k =
        alistFind (buildNodeMaps paths (buildNoteContents paths fetch)).2.2
          k := by
      rw [buildNodeMaps_eq]
    rw [← this, initAdj_find] at hx''
    revert hx''
    rcases paths.reverse.find? (fun p => nameFromPath p = k) with - | q
    · exact fun hx'' => absurd hx'' (List.not_mem_nil x')
    · exact fun hx'' => absurd hx'' (List.not_mem_nil x')

/-- Every known node name has a forward and a reverse adjacency entry. -/
theorem graph_adj_total (paths : List String)
    (fetch : String → Option String) (now : Nat) :
    ∀ n, (alistFind (buildGraphTotal paths fetch now).nodes n).isSome = true →
      (alistFind (buildGraphTotal paths fetch now).edges n).isSome = true ∧
      (alistFind (buildGraphTotal paths fetch now).reverseEdges n).isSome =
        true := by
  intro n hn
  have hex := (nodes_isSome_iff paths fetch now n).mp hn
  have hinit : (alistFind
      (paths.foldl
        (fun m p => alistSet m (nameFromPath p) ([] : List String)) [])
      n).isSome = true := (initAdj_isSome_iff paths n).mpr hex
  constructor
  · rw [graph_edges_find]
    have : alistFind (buildNodeMaps paths (buildNoteContents paths fetch)).2.1
        n = alistFind
          (paths.foldl
            (fun m p => alistSet m (nameFromPath p) ([] : List String)) [])
          n := by
      rw [buildNodeMaps_eq]
    rw [this]
    rcases hfind : alistFind
      (paths.foldl
        (fun m p => alistSet m (nameFromPath p) ([] : List String)) [])
      n with - | s
    · rw [hfind] at hinit
      exact absurd hinit (by simp)
    · rfl
  · rw [graph_reverseEdges_eq]
    refine rfold_isSome _ _ _ _ ?_
    have : alistFind (buildNodeMaps paths (buildNoteContents paths fetch)).2.2
        n = alistFind
          (paths.foldl
            (fun m p => alistSet m (nameFromPath p) ([] : List String)) [])
          n := by
      rw [buildNodeMaps_eq]
    rw [this]
    exact hinit

/-! ### Claim theorems: graph construction -/

/-- C1: After `buildGraph()`, for every listed document whose content was
successfully fetched and whose derived name does not collide with another
listed document's derived name, the forward edge set stored under its name
is exactly the set of parsed wikilink targets of its content that are names
of known nodes in the same snapshot; every such target's reverse edge set
contains the document's name; and a name that is not a node never appears
in any forward or reverse edge set. -/
theorem claim_C1_edges (paths : List String) (fetch : String → Option String)
    (now : Nat) (p c : String)
    (hp : p ∈ paths) (hc : fetch p = some c)
    (huniq : ∀ q ∈ paths, nameFromPath q = nameFromPath p → q = p) :
    (∀ t, (∃ s, alistFind (buildGraphTotal paths fetch now).edges
        (nameFromPath p) = some s ∧ t ∈ s) ↔
      (t ∈ parseWikilinks c ∧
        (alistFind (buildGraphTotal paths fetch now).nodes t).isSome = true)) ∧
    (∀ t, t ∈ parseWikilinks c →
      (alistFind (buildGraphTotal paths fetch now).nodes t).isSome = true →
      nameFromPath p ∈
        (alistFind (buildGraphTotal paths fetch now).reverseEdges t).getD []) ∧
    (∀ n s, alistFind (buildGraphTotal paths fetch now).edges n = some s →
      ∀ x ∈ s,
        (alistFind (buildGraphTotal paths fetch now).nodes x).isSome = true) ∧
    (∀ n s,
      alistFind (buildGraphTotal paths fetch now).reverseEdges n = some s →
      ∀ x ∈ s,
        (alistFind (buildGraphTotal paths fetch now).nodes x).isSome = true) := by
  refine ⟨?_, ?_, graph_edges_safe paths fetch now,
    graph_reverse_safe paths fetch now⟩
  · intro t
    rw [graph_edges_find_unique paths fetch now hp hc huniq]
    constructor
    · rintro ⟨s, hs, hts⟩
      injection hs with hs'
      subst hs'
      rcases (mem_addKnownLinks _ _ _ _).mp hts with h | h
      · exact absurd h (List.not_mem_nil t)
      · exact h
    · rintro ⟨h1, h2⟩
      exact ⟨_, rfl, (mem_addKnownLinks _ _ _ _).mpr (Or.inr ⟨h1, h2⟩)⟩
  · intro t ht hk
    rw [graph_reverseEdges_eq]
    refine rfold_insert _ _ p c t
      (alistFind_mem (buildNoteContents_find_some paths fetch hp hc)) ht ?_ _
    rw [← buildGraphTotal_nodes paths fetch now]
    exact hk

theorem claim_C1_edges_witness :
    ("A.md" ∈ ["A.md", "B.md"]) ∧
    ((fun q => if q = "A.md" then some "[[B]] [[Z]]" else some "") "A.md" =
      some "[[B]] [[Z]]") ∧
    (∀ q ∈ ["A.md", "B.md"],
      nameFromPath q = nameFromPath "A.md" → q = "A.md") ∧
    ((∀ t, (∃ s, alistFind (buildGraphTotal ["A.md", "B.md"]
        (fun q => if q = "A.md" then some "[[B]] [[Z]]" else some "") 0).edges
        (nameFromPath "A.md") = some s ∧ t ∈ s) ↔
      (t ∈ parseWikilinks "[[B]] [[Z]]" ∧
        (alistFind (buildGraphTotal ["A.md", "B.md"]
          (fun q => if q = "A.md" then some "[[B]] [[Z]]" else some "")
          0).nodes t).isSome = true)) ∧
    (∀ t, t ∈ parseWikilinks "[[B]] [[Z]]" →
      (alistFind (buildGraphTotal ["A.md", "B.md"]
        (fun q => if q = "A.md" then some "[[B]] [[Z]]" else some "")
        0).nodes t).isSome = true →
      nameFromPath "A.md" ∈
        (alistFind (buildGraphTotal ["A.md", "B.md"]
          (fun q => if q = "A.md" then some "[[B]] [[Z]]" else some "")
          0).reverseEdges t).getD []) ∧
    (∀ n s, alistFind (buildGraphTotal ["A.md", "B.md"]
        (fun q => if q = "A.md" then some "[[B]] [[Z]]" else some "")
        0).edges n = some s →
      ∀ x ∈ s,
        (alistFind (buildGraphTotal ["A.md", "B.md"]
          (fun q => if q = "A.md" then some "[[B]] [[Z]]" else some "")
          0).nodes x).isSome = true) ∧
    (∀ n s, alistFind (buildGraphTotal ["A.md", "B.md"]
        (fun q => if q = "A.md" then some "[[B]] [[Z]]" else some "")
        0).reverseEdges n = some s →
      ∀ x ∈ s,
        (alistFind (buildGraphTotal ["A.md", "B.md"]
          (fun q => if q = "A.md" then some "[[B]] [[Z]]" else some "")
          0).nodes x).isSome = true)) :=
  ⟨by decide, by decide, by decide,
    claim_C1_edges ["A.md", "B.md"]
      (fun q => if q = "A.md" then some "[[B]] [[Z]]" else some "") 0
      "A.md" "[[B]] [[Z]]" (by decide) (by decide) (by decide)⟩

/-- C2 counterexample: with listing `["a/X.md", "b/X.md"]` the node stored
under `"X"` is the one built from the second (last) path, not the first:
`Map.set` overwrites on collision, so the claim's "first writer wins" is
false. -/
theorem claim_C2_counterexample :
    alistFind (buildGraphTotal ["a/X.md", "b/X.md"] (fun _ => some "")
        0).nodes "X" = some (mkNode "b/X.md" "") ∧
    mkNode "b/X.md" "" ≠ mkNode "a/X.md" "" ∧
    alistFind (buildGraphTotal ["a/X.md", "b/X.md"] (fun _ => some "")
        0).nodes "X" ≠ some (mkNode "a/X.md" "") := by
  decide

/-- C2 (amended): when several listed paths derive the same short name, the
node stored under that name is the one constructed from the last such path
in the listing (each later write overwrites the earlier one); in general
the stored node under any name is built from the last listed path deriving
that name, with that path's fetched content. -/
theorem claim_C2_lastWriterWins (paths : List String)
    (fetch : String → Option String) (now : Nat) (n : String) :
    alistFind (buildGraphTotal paths fetch now).nodes n =
      (paths.reverse.find? (fun p => nameFromPath p = n)).map
        (fun p => mkNode p
          ((alistFind (buildNoteContents paths fetch) p).getD "")) :=
  nodes_find_eq paths fetch now n

/-- C7: Every snapshot built by `buildGraph()` satisfies both structural
invariants: every stored node name has both a forward-adjacency and a
reverse-adjacency entry (possibly empty), and every name occurring in any
forward or reverse adjacency set is the name of a node present in the same
snapshot. -/
theorem claim_C7_invariants (paths : List String)
    (fetch : String → Option String) (now : Nat) :
    (∀ n, (alistFind (buildGraphTotal paths fetch now).nodes n).isSome =
        true →
      (alistFind (buildGraphTotal paths fetch now).edges n).isSome = true ∧
      (alistFind (buildGraphTotal paths fetch now).reverseEdges n).isSome =
        true) ∧
    (∀ n s, alistFind (buildGraphTotal paths fetch now).edges n = some s →
      ∀ x ∈ s,
        (alistFind (buildGraphTotal paths fetch now).nodes x).isSome = true) ∧
    (∀ n s,
      alistFind (buildGraphTotal paths fetch now).reverseEdges n = some s →
      ∀ x ∈ s,
        (alistFind (buildGraphTotal paths fetch now).nodes x).isSome = true) :=
  ⟨graph_adj_total paths fetch now, graph_edges_safe paths fetch now,
    graph_reverse_safe paths fetch now⟩

/-- C5: `buildGraph()` propagates an error to its caller exactly when the
document-listing step fails, and then the previously published snapshot is
left unchanged; a failed per-document fetch never fails the build — that
document's node is still created with empty content (`tags = []`,
`hasContent = false`) and no outgoing edges derived from it (stated for a
collision-free name, where the stored node and edge entry are the
document's own). -/
theorem claim_C5_error_handling (paths : List String)
    (fetch : String → Option String) (now : Nat) (prev : Graph) (p : String)
    (hp : p ∈ paths) (hfail : fetch p = none)
    (huniq : ∀ q ∈ paths, nameFromPath q = nameFromPath p → q = p) :
    (∀ (f : String → Option String) (t : Nat),
      rebuild none f t = Except.error ()) ∧
    (∀ (ps : List String) (f : String → Option String) (t : Nat),
      rebuild (some ps) f t = Except.ok (buildGraphTotal ps f t)) ∧
    (∀ (f : String → Option String) (t : Nat),
      publishRebuild prev none f t = prev) ∧
    alistFind (buildGraphTotal paths fetch now).nodes (nameFromPath p) =
      some (mkNode p "") ∧
    (mkNode p "").tags = [] ∧
    (mkNode p "").hasContent = false ∧
    alistFind (buildGraphTotal paths fetch now).edges (nameFromPath p) =
      some [] := by
  refine ⟨fun f t => rfl, fun ps f t => rfl, fun f t => rfl, ?_, rfl, rfl, ?_⟩
  · rw [nodes_find_eq]
    have hs := (initAdj_isSome_iff paths (nameFromPath p)).mpr ⟨p, hp, rfl⟩
    rw [initAdj_find] at hs
    rcases hf : paths.reverse.find? (fun q => nameFromPath q = nameFromPath p)
      with - | q
    · rw [hf] at hs
      exact absurd hs (by simp)
    · have hqp : q = p := huniq q
        (List.mem_reverse.mp (List.mem_of_find?_eq_some hf))
        (of_decide_eq_true
          (@List.find?_some _ (fun q => decide (nameFromPath q = nameFromPath p))
            q paths.reverse hf))
      subst hqp
      simp only [Option.map_some']
      rw [buildNoteContents_find_none paths fetch hfail]
      rfl
  · have hinit : alistFind
        (buildNodeMaps paths (buildNoteContents paths fetch)).2.1
        (nameFromPath p) = some [] := by
      rw [buildNodeMaps_eq]
      show alistFind
        (paths.foldl
          (fun m p => alistSet m (nameFromPath p) ([] : List String)) []) _ = _
      have hs := (initAdj_isSome_iff paths (nameFromPath p)).mpr ⟨p, hp, rfl⟩
      rw [initAdj_find] at hs ⊢
      revert hs
      rcases paths.reverse.find? (fun q => nameFromPath q = nameFromPath p)
        with - | q
      · intro hs; exact absurd hs (by simp)
      · intro hs; rfl
    rw [graph_edges_find, hinit]
    refine congrArg some ?_
    refine efold_id _ _ _ ?_ []
    intro pc hpc hname
    have hmem := buildNoteContents_mem paths fetch pc hpc
    have := huniq pc.1 hmem.1 hname
    rw [this, hfail] at hmem
    exact Option.noConfusion hmem.2

theorem claim_C5_error_handling_witness :
    ("A.md" ∈ ["A.md", "B.md"]) ∧
    ((fun q => if q = "A.md" then none else some "[[A]]") "A.md" =
      (none : Option String)) ∧
    (∀ q ∈ ["A.md", "B.md"],
      nameFromPath q = nameFromPath "A.md" → q = "A.md") ∧
    ((∀ (f : String → Option String) (t : Nat),
      rebuild none f t = Except.error ()) ∧
    (∀ (ps : List String) (f : String → Option String) (t : Nat),
      rebuild (some ps) f t = Except.ok (buildGraphTotal ps f t)) ∧
    (∀ (f : String → Option String) (t : Nat),
      publishRebuild (buildGraphTotal [] (fun _ => none) 0) none f t =
        buildGraphTotal [] (fun _ => none) 0) ∧
    alistFind (buildGraphTotal ["A.md", "B.md"]
        (fun q => if q = "A.md" then none else some "[[A]]") 7).nodes
        (nameFromPath "A.md") = some (mkNode "A.md" "") ∧
    (mkNode "A.md" "").tags = [] ∧
    (mkNode "A.md" "").hasContent = false ∧
    alistFind (buildGraphTotal ["A.md", "B.md"]
        (fun q => if q = "A.md" then none else some "[[A]]") 7).edges
        (nameFromPath "A.md") = some []) :=
  ⟨by decide, by decide, by decide,
    claim_C5_error_handling ["A.md", "B.md"]
      (fun q => if q = "A.md" then none else some "[[A]]") 7
      (buildGraphTotal [] (fun _ => none) 0) "A.md"
      (by decide) (by decide) (by decide)⟩

/-- C8: rebuilding twice from an unchanged content source produces
snapshots with identical node maps and identical forward and reverse edge
maps (only the timestamp differs), and every query returns identical
results against both snapshots (`getStats` agrees on every field except
`lastRefresh`). -/
theorem claim_C8_idempotent (paths : List String)
    (fetch : String → Option String) (t1 t2 : Nat) (start a b : String)
    (depth topN : Nat) (mode : ClusterMode) :
    (buildGraphTotal paths fetch t1).nodes =
      (buildGraphTotal paths fetch t2).nodes ∧
    (buildGraphTotal paths fetch t1).edges =
      (buildGraphTotal paths fetch t2).edges ∧
    (buildGraphTotal paths fetch t1).reverseEdges =
      (buildGraphTotal paths fetch t2).reverseEdges ∧
    queryRelated (buildGraphTotal paths fetch t1) start depth =
      queryRelated (buildGraphTotal paths fetch t2) start depth ∧
    findPath (buildGraphTotal paths fetch t1) a b =
      findPath (buildGraphTotal paths fetch t2) a b ∧
    getHubs (buildGraphTotal paths fetch t1) topN =
      getHubs (buildGraphTotal paths fetch t2) topN ∧
    getOrphans (buildGraphTotal paths fetch t1) =
      getOrphans (buildGraphTotal paths fetch t2) ∧
    getClusters (buildGraphTotal paths fetch t1) mode =
      getClusters (buildGraphTotal paths fetch t2) mode ∧
    (getStats (buildGraphTotal paths fetch t1)).totalNotes =
      (getStats (buildGraphTotal paths fetch t2)).totalNotes ∧
    (getStats (buildGraphTotal paths fetch t1)).totalLinks =
      (getStats (buildGraphTotal paths fetch t2)).totalLinks ∧
    (getStats (buildGraphTotal paths fetch t1)).totalTags =
      (getStats (buildGraphTotal paths fetch t2)).totalTags ∧
    (getStats (buildGraphTotal paths fetch t1)).orphanCount =
      (getStats (buildGraphTotal paths fetch t2)).orphanCount ∧
    (getStats (buildGraphTotal paths fetch t1)).avgLinksPerNoteTimes100 =
      (getStats (buildGraphTotal paths fetch t2)).avgLinksPerNoteTimes100 ∧
    (getStats (buildGraphTotal paths fetch t1)).folders =
      (getStats (buildGraphTotal paths fetch t2)).folders :=
  ⟨rfl, rfl, rfl, rfl, rfl, rfl, rfl, rfl, rfl, rfl, rfl, rfl, rfl, rfl⟩

/-! ### The folder statistic and the folder clusters -/

theorem statsFolder_fold (L : List (String × GraphNode)) :
    ∀ s₀ : List String, s₀.Nodup →
      (L.foldl
        (fun s e => if e.2.folder ≠ "" then setAdd s e.2.folder else s)
        s₀).Nodup ∧
      (∀ x,
        x ∈ L.foldl
          (fun s e => if e.2.folder ≠ "" then setAdd s e.2.folder else s)
          s₀ ↔
        x ∈ s₀ ∨ (x ∈ L.map (fun e => e.2.folder) ∧ x ≠ "")) := by
  induction L with
  | nil =>
      intro s₀ h
      refine ⟨h, fun x => ?_⟩
      simp
  | cons e rest ih =>
      intro s₀ h
      rw [List.foldl_cons]
      by_cases hf : e.2.folder ≠ ""
      · rw [if_pos hf]
        obtain ⟨hn, hm⟩ := ih (setAdd s₀ e.2.folder) (setAdd_nodup h _)
        refine ⟨hn, fun x => ?_⟩
        rw [hm x]
        simp only [mem_setAdd, List.map_cons, List.mem_cons]
        constructor
        · rintro ((rfl | hx) | hx)
          · exact Or.inr ⟨Or.inl rfl, hf⟩
          · exact Or.inl hx
          · exact Or.inr ⟨Or.inr hx.1, hx.2⟩
        · rintro (hx | ⟨rfl | hx, hne⟩)
          · exact Or.inl (Or.inr hx)
          · exact Or.inl (Or.inl rfl)
          · exact Or.inr ⟨hx, hne⟩
      · rw [if_neg hf]
        obtain ⟨hn, hm⟩ := ih s₀ h
        refine ⟨hn, fun x => ?_⟩
        rw [hm x]
        simp only [List.map_cons, List.mem_cons]
        constructor
        · rintro (hx | hx)
          · exact Or.inl hx
          · exact Or.inr ⟨Or.inr hx.1, hx.2⟩
        · rintro (hx | ⟨rfl | hx, hne⟩)
          · exact Or.inl hx
          · exact absurd hne (by simpa using hf)
          · exact Or.inr ⟨hx, hne⟩

theorem getStats_folders_def (g : Graph) :
    (getStats g).folders =
      (g.nodes.foldl
        (fun s e => if e.2.folder ≠ "" then setAdd s e.2.folder else s)
        []).length :=
  rfl

/-- The cluster fold over all-root nodes builds a single "(root)" bucket. -/
theorem clusters_fold_all_root (L : List (String × GraphNode))
    (hall : ∀ e ∈ L, e.2.folder = "") :
    ∀ ms : List (String × String),
      L.foldl
        (fun groups e =>
          alistPushMember groups
            (if e.2.folder = "" then "(root)" else e.2.folder)
            (e.1, e.2.path))
        [("(root)", ms)] =
      [("(root)", ms ++ L.map (fun e => (e.1, e.2.path)))] := by
  induction L with
  | nil => intro ms; simp
  | cons e rest ih =>
      intro ms
      rw [List.foldl_cons, if_pos (hall e (List.mem_cons_self _ _))]
      have hstep : alistPushMember [("(root)", ms)] "(root)" (e.1, e.2.path) =
          [("(root)", ms ++ [(e.1, e.2.path)])] := by
        unfold alistPushMember
        rw [if_pos (by simp [alistFind])]
        simp [List.map_cons]
      rw [hstep, ih (fun e' h => hall e' (List.mem_cons_of_mem _ h))]
      simp

theorem statsFolder_fold_empty (L : List (String × GraphNode))
    (hall : ∀ e ∈ L, e.2.folder = "") :
    ∀ s₀ : List String,
      L.foldl
        (fun s e => if e.2.folder ≠ "" then setAdd s e.2.folder else s)
        s₀ = s₀ := by
  induction L with
  | nil => intro s₀; rfl
  | cons e rest ih =>
      intro s₀
      rw [List.foldl_cons,
        if_neg (by simp [hall e (List.mem_cons_self _ _)])]
      exact ih (fun e' h => hall e' (List.mem_cons_of_mem _ h)) s₀

theorem getClusters_folder_def (g : Graph) :
    getClusters g ClusterMode.folder =
      sortDescBy (fun e => e.2.length)
        (g.nodes.foldl
          (fun groups e =>
            alistPushMember groups
              (if e.2.folder = "" then "(root)" else e.2.folder)
              (e.1, e.2.path))
          []) :=
  rfl

/-- C10: `getStats().folders` equals the number of distinct non-empty
folder labels among all nodes — a node whose folder is the empty string
contributes nothing — even though `getClusters("folder")` places every
such node into a "(root)" bucket: a non-empty graph whose notes all live
at the root reports a folder count of 0 while `getClusters("folder")`
reports exactly one (non-empty) "(root)" bucket. -/
theorem claim_C10_folder_count (g : Graph) :
    (getStats g).folders =
      ((g.nodes.map (fun e => e.2.folder)).filter
        (fun f => f ≠ "")).toFinset.card ∧
    (g.nodes ≠ [] → (∀ e ∈ g.nodes, e.2.folder = "") →
      (getStats g).folders = 0 ∧
      getClusters g ClusterMode.folder =
        [("(root)", g.nodes.map (fun e => (e.1, e.2.path)))]) := by
  constructor
  · obtain ⟨hnodup, hmem⟩ := statsFolder_fold g.nodes [] List.nodup_nil
    rw [getStats_folders_def, ← List.toFinset_card_of_nodup hnodup]
    congr 1
    ext x
    simp only [List.mem_toFinset, List.mem_filter, hmem x,
      List.not_mem_nil, false_or, decide_eq_true_eq]
  · intro hne hall
    refine ⟨?_, ?_⟩
    · rw [getStats_folders_def, statsFolder_fold_empty g.nodes hall []]
      rfl
    · rw [getClusters_folder_def]
      revert hne hall
      rcases hnodes : g.nodes with - | ⟨e, rest⟩
      · intro hne _
        exact absurd rfl hne
      · intro _ hall
        rw [List.foldl_cons]
        have hfirst : alistPushMember []
            (if e.2.folder = "" then "(root)" else e.2.folder)
            (e.1, e.2.path) = [("(root)", [(e.1, e.2.path)])] := by
          rw [if_pos (hall e (List.mem_cons_self _ _))]
          rfl
        rw [hfirst,
          clusters_fold_all_root rest
            (fun e' h => hall e' (List.mem_cons_of_mem _ h)) _]
        rfl

theorem claim_C10_folder_count_witness :
    ((getStats (buildGraphTotal ["A.md"] (fun _ => some "") 0)).folders =
      (((buildGraphTotal ["A.md"] (fun _ => some "") 0).nodes.map
        (fun e => e.2.folder)).filter (fun f => f ≠ "")).toFinset.card) ∧
    (buildGraphTotal ["A.md"] (fun _ => some "") 0).nodes ≠ [] ∧
    (∀ e ∈ (buildGraphTotal ["A.md"] (fun _ => some "") 0).nodes,
      e.2.folder = "") ∧
    ((getStats (buildGraphTotal ["A.md"] (fun _ => some "") 0)).folders = 0 ∧
      getClusters (buildGraphTotal ["A.md"] (fun _ => some "") 0)
          ClusterMode.folder =
        [("(root)",
          (buildGraphTotal ["A.md"] (fun _ => some "") 0).nodes.map
            (fun e => (e.1, e.2.path)))]) :=
  ⟨(claim_C10_folder_count _).1, by decide, by decide,
    (claim_C10_folder_count _).2 (by decide) (by decide)⟩

/-! ### Claim theorems: the find-path tool outcomes -/

/-- C6 counterexample: the claim says a name absent from the snapshot is
signalled as "not found", but the tool layer resolves names
case-insensitively first: with a node "Foo", the absent input "foo"
resolves and the query returns a found path, not the not-found signal. -/
theorem claim_C6_counterexample :
    ("foo" : String) ≠ "Foo" ∧
    alistFind (buildGraphTotal ["Foo.md"] (fun _ => some "") 0).nodes "foo" =
      none ∧
    findPathTool (buildGraphTotal ["Foo.md"] (fun _ => some "") 0) "foo"
        "Foo" = FindPathOutcome.found ["Foo"] ∧
    ∀ n, FindPathOutcome.found ["Foo"] ≠ FindPathOutcome.notFound n := by
  refine ⟨by decide, by decide, by decide, fun n h => ?_⟩
  exact FindPathOutcome.noConfusion h

/-- C6 (amended): when a name cannot be resolved to a known node even
case-insensitively, the tool signals "not found" naming that input; when
both names resolve (in particular when both are known nodes exactly) but
`findPath` finds no connection, it signals "no path"; the two outcomes are
distinct constructors, distinguishable by the caller. -/
theorem claim_C6_distinct_outcomes (g : Graph) (a b : String) :
    (resolveName g a = none →
      findPathTool g a b = FindPathOutcome.notFound a) ∧
    (∀ ra, resolveName g a = some ra → resolveName g b = none →
      findPathTool g a b = FindPathOutcome.notFound b) ∧
    (∀ ra rb, resolveName g a = some ra → resolveName g b = some rb →
      findPath g ra rb = none →
      findPathTool g a b = FindPathOutcome.noPath) ∧
    ((alistFind g.nodes a).isSome = true →
      (alistFind g.nodes b).isSome = true → findPath g a b = none →
      findPathTool g a b = FindPathOutcome.noPath) ∧
    (∀ n, FindPathOutcome.notFound n ≠ FindPathOutcome.noPath) := by
  have hres : ∀ x, (alistFind g.nodes x).isSome = true →
      resolveName g x = some x := by
    intro x hx
    unfold resolveName
    rw [if_pos hx]
  refine ⟨?_, ?_, ?_, ?_, fun n h => FindPathOutcome.noConfusion h⟩
  · intro ha
    unfold findPathTool
    rw [ha]
  · intro ra ha hb
    unfold findPathTool
    rw [ha, hb]
  · intro ra rb ha hb hp
    unfold findPathTool
    rw [ha, hb]
    show (match findPath g ra rb with
      | none => FindPathOutcome.noPath
      | some p => FindPathOutcome.found p) = FindPathOutcome.noPath
    rw [hp]
  · intro ha hb hp
    unfold findPathTool
    rw [hres a ha, hres b hb]
    show (match findPath g a b with
      | none => FindPathOutcome.noPath
      | some p => FindPathOutcome.found p) = FindPathOutcome.noPath
    rw [hp]

theorem claim_C6_distinct_outcomes_witness :
    (resolveName (buildGraphTotal ["A.md", "B.md"] (fun _ => some "") 0)
        "zz" = none) ∧
    (findPathTool (buildGraphTotal ["A.md", "B.md"] (fun _ => some "") 0)
        "zz" "B" = FindPathOutcome.notFound "zz") ∧
    ((alistFind (buildGraphTotal ["A.md", "B.md"] (fun _ => some "")
        0).nodes "A").isSome = true) ∧
    ((alistFind (buildGraphTotal ["A.md", "B.md"] (fun _ => some "")
        0).nodes "B").isSome = true) ∧
    (findPath (buildGraphTotal ["A.md", "B.md"] (fun _ => some "") 0)
        "A" "B" = none) ∧
    (findPathTool (buildGraphTotal ["A.md", "B.md"] (fun _ => some "") 0)
        "A" "B" = FindPathOutcome.noPath) ∧
    (∀ n, FindPathOutcome.notFound n ≠ FindPathOutcome.noPath) :=
  ⟨by decide,
   (claim_C6_distinct_outcomes
     (buildGraphTotal ["A.md", "B.md"] (fun _ => some "") 0) "zz" "B").1
     (by decide),
   by decide, by decide, by decide,
   (claim_C6_distinct_outcomes
     (buildGraphTotal ["A.md", "B.md"] (fun _ => some "") 0) "A"
     "B").2.2.2.1 (by decide) (by decide) (by decide),
   (claim_C6_distinct_outcomes
     (buildGraphTotal ["A.md", "B.md"] (fun _ => some "") 0) "A"
     "B").2.2.2.2⟩

theorem wikilinkTargetChar_iff (c : Char) :
    wikilinkTargetChar c = true ↔ ¬(c = ']' ∨ c = '|' ∨ c = '#') := by
  unfold wikilinkTargetChar
  simp [not_or, and_assoc]

theorem takeRun_all_append {p : Char → Bool} {a b : List Char}
    (ha : ∀ c ∈ a, p c = true)
    (hb : ∀ h t, b = h :: t → p h = false) :
    takeRun p (a ++ b) = a ∧ dropRun p (a ++ b) = b := by
  induction a with
  | nil =>
      rcases b with - | ⟨h, t⟩
      · exact ⟨rfl, rfl⟩
      · rw [List.nil_append, takeRun, dropRun, if_neg, if_neg]
        · exact ⟨rfl, rfl⟩
        · simp [hb h t rfl]
        · simp [hb h t rfl]
  | cons c cs ih =>
      obtain ⟨iht, ihd⟩ := ih (fun c' h => ha c' (List.mem_cons_of_mem _ h))
      rw [List.cons_append, takeRun, dropRun,
        if_pos (ha c (List.mem_cons_self _ _)),
        if_pos (ha c (List.mem_cons_self _ _))]
      exact ⟨congrArg (c :: ·) iht, ihd⟩

theorem matchDisplayTail_sound {cs r : List Char}
    (h : matchDisplayTail cs = some r) :
    ∃ d, cs = d ++ ']' :: ']' :: r ∧ d ≠ [] ∧ ∀ c ∈ d, c ≠ ']' := by
  have hsplit := takeRun_append_dropRun notRBracket cs
  unfold matchDisplayTail at h
  revert h
  rcases htake : takeRun notRBracket cs with - | ⟨u, us⟩
  · intro h; exact absurd h (by simp)
  · rcases hdrop : dropRun notRBracket cs with - | ⟨d1, rs⟩
    · intro h; exact absurd h (by simp)
    · rcases rs with - | ⟨d2, rs2⟩
      · intro h
        rcases Decidable.em (d1 = ']') with rfl | h1
        · exact absurd h (by simp)
        · exact absurd h (by simp [h1])
      · intro h
        rcases Decidable.em (d1 = ']') with rfl | h1
        · rcases Decidable.em (d2 = ']') with rfl | h2
          · simp only [Option.some.injEq] at h
            subst h
            refine ⟨u :: us, ?_, by simp, ?_⟩
            · rw [← hsplit, htake, hdrop]
            · intro c hc
              have := mem_takeRun (htake ▸ hc)
              unfold notRBracket at this
              simpa using this
          · exact absurd h (by simp [h2])
        · exact absurd h (by simp [h1])

/-- Soundness: a successful match attempt is an occurrence of one of the
three forms. -/
theorem matchWikilinkBody_sound {cs t r : List Char}
    (h : matchWikilinkBody cs = some (t, r)) :
    WikilinkForm ('[' :: '[' :: cs) (String.mk (trimChars t)) r := by
  have hsplit := takeRun_append_dropRun wikilinkTargetChar cs
  unfold matchWikilinkBody at h
  revert h
  rcases htake : takeRun wikilinkTargetChar cs with - | ⟨u, us⟩
  · intro h; exact absurd h (by simp)
  · have htchars : ∀ c ∈ (u :: us), ¬(c = ']' ∨ c = '|' ∨ c = '#') := by
      intro c hc
      exact (wikilinkTargetChar_iff c).mp (mem_takeRun (htake ▸ hc))
    rcases hdrop : dropRun wikilinkTargetChar cs with - | ⟨c, rest'⟩
    · intro h; exact absurd h (by simp)
    · intro h
      by_cases hc1 : c = ']'
      · subst hc1
        rcases rest' with - | ⟨c2, rest2⟩
        · exact absurd h (by simp)
        · by_cases hc2 : c2 = ']'
          · subst hc2
            simp only [Option.some.injEq, Prod.mk.injEq] at h
            obtain ⟨rfl, rfl⟩ := h
            have hcs : cs = (u :: us) ++ ']' :: ']' :: rest2 := by
              rw [← hsplit, htake, hdrop]
            rw [hcs]
            exact WikilinkForm.plain (u :: us) rest2 (by simp) htchars
          · exact absurd h (by simp [hc2])
      · by_cases hc2 : c = '|'
        · subst hc2
          simp only [Option.map_eq_some'] at h
          obtain ⟨r', hr', heq⟩ := h
          simp only [Prod.mk.injEq] at heq
          obtain ⟨rfl, rfl⟩ := heq
          obtain ⟨d, hd, hdne, hdch⟩ := matchDisplayTail_sound hr'
          have hcs : cs = (u :: us) ++ '|' :: (d ++ ']' :: ']' :: r') := by
            rw [← hsplit, htake, hdrop, hd]
          rw [hcs]
          exact WikilinkForm.withDisplay (u :: us) d r' (by simp) htchars
            hdne hdch
        · by_cases hc3 : c = '#'
          · subst hc3
            simp only [Option.map_eq_some'] at h
            obtain ⟨r', hr', heq⟩ := h
            simp only [Prod.mk.injEq] at heq
            obtain ⟨rfl, rfl⟩ := heq
            obtain ⟨d, hd, hdne, hdch⟩ := matchDisplayTail_sound hr'
            have hcs : cs = (u :: us) ++ '#' :: (d ++ ']' :: ']' :: r') := by
              rw [← hsplit, htake, hdrop, hd]
            rw [hcs]
            exact WikilinkForm.withAnchor (u :: us) d r' (by simp) htchars
              hdne hdch
          · exact absurd h (by simp [hc1, hc2, hc3])

theorem matchDisplayTail_complete {d r : List Char}
    (h1 : d ≠ []) (h2 : ∀ c ∈ d, c ≠ ']') :
    matchDisplayTail (d ++ ']' :: ']' :: r) = some r := by
  have hall : ∀ c ∈ d, notRBracket c = true := by
    intro c hc
    unfold notRBracket
    simpa using h2 c hc
  have hhd : ∀ h t, (']' :: ']' :: r : List Char) = h :: t →
      notRBracket h = false := by
    intro h t heq
    have : h = ']' := by injection heq with h1 h2; exact h1.symm
    subst this
    rfl
  obtain ⟨ht, hd⟩ := takeRun_all_append (p := notRBracket) hall hhd
  unfold matchDisplayTail
  rw [ht, hd]
  rcases d with - | ⟨u, us⟩
  · exact absurd rfl h1
  · rfl

/-- Completeness: an occurrence of one of the three forms is matched. -/
theorem matchWikilinkBody_complete {cs : List Char} {t : String}
    {r : List Char} (h : WikilinkForm ('[' :: '[' :: cs) t r) :
    ∃ t₀, matchWikilinkBody cs = some (t₀, r) ∧
      t = String.mk (trimChars t₀) := by
  have split : ∀ (target : List Char) (tail : List Char),
      target ≠ [] → (∀ c ∈ target, ¬(c = ']' ∨ c = '|' ∨ c = '#')) →
      (∀ h t, tail = h :: t → wikilinkTargetChar h = false) →
      takeRun wikilinkTargetChar (target ++ tail) = target ∧
        dropRun wikilinkTargetChar (target ++ tail) = tail := by
    intro target tail h1 h2 h3
    exact takeRun_all_append
      (fun c hc => (wikilinkTargetChar_iff c).mpr (h2 c hc)) h3
  cases h with
  | plain target rest h1 h2 =>
      obtain ⟨ht, hd⟩ := split target (']' :: ']' :: r) h1 h2
        (by intro h t heq; injection heq with e1 e2; subst e1; rfl)
      refine ⟨target, ?_, rfl⟩
      unfold matchWikilinkBody
      rw [ht, hd]
      rcases target with - | ⟨u, us⟩
      · exact absurd rfl h1
      · rfl
  | withDisplay target display rest h1 h2 h3 h4 =>
      obtain ⟨ht, hd⟩ := split target ('|' :: (display ++ ']' :: ']' :: r))
        h1 h2 (by intro h t heq; injection heq with e1 e2; subst e1; rfl)
      refine ⟨target, ?_, rfl⟩
      unfold matchWikilinkBody
      rw [ht, hd]
      rcases target with - | ⟨u, us⟩
      · exact absurd rfl h1
      · simp only []
        rw [matchDisplayTail_complete h3 h4]
        rfl
  | withAnchor target anchor rest h1 h2 h3 h4 =>
      obtain ⟨ht, hd⟩ := split target ('#' :: (anchor ++ ']' :: ']' :: r))
        h1 h2 (by intro h t heq; injection heq with e1 e2; subst e1; rfl)
      refine ⟨target, ?_, rfl⟩
      unfold matchWikilinkBody
      rw [ht, hd]
      rcases target with - | ⟨u, us⟩
      · exact absurd rfl h1
      · simp only []
        rw [matchDisplayTail_complete h3 h4]
        rfl

theorem wikilinkForm_starts {cs : List Char} {t : String} {r : List Char}
    (h : WikilinkForm cs t r) : ∃ cs', cs = '[' :: '[' :: cs' := by
  cases h with
  | plain target rest h1 h2 => exact ⟨_, rfl⟩
  | withDisplay target display rest h1 h2 h3 h4 => exact ⟨_, rfl⟩
  | withAnchor target anchor rest h1 h2 h3 h4 => exact ⟨_, rfl⟩

theorem specWikilinks_det {cs : List Char} {l1 l2 : List String}
    (h1 : SpecWikilinks cs l1) (h2 : SpecWikilinks cs l2) : l1 = l2 := by
  induction h1 generalizing l2 with
  | nil =>
      cases h2 with
      | nil => rfl
      | emit hf hrest =>
          obtain ⟨cs', hcs⟩ := wikilinkForm_starts hf
          exact absurd hcs (by simp)
  | emit hf hrest ih =>
      rename_i cs target rest ls
      obtain ⟨cs', hcs⟩ := wikilinkForm_starts hf
      cases h2 with
      | nil =>
          exact absurd hcs (by simp)
      | emit hf2 hrest2 =>
          rename_i target2 rest2 ls2
          subst hcs
          obtain ⟨t₀, hm, hteq⟩ := matchWikilinkBody_complete hf
          obtain ⟨t₀2, hm2, hteq2⟩ := matchWikilinkBody_complete hf2
          rw [hm] at hm2
          injection hm2 with hpair
          obtain ⟨he1, he2⟩ := Prod.mk.inj hpair
          subst he1
          subst he2
          rw [hteq, hteq2, ih hrest2]
      | skip hneg hrest2 =>
          exact absurd hf (hneg _ _)
  | skip hneg hrest ih =>
      cases h2 with
      | emit hf2 hrest2 => exact absurd hf2 (hneg _ _)
      | skip hneg2 hrest2 => exact ih hrest2

theorem parseWikilinksAux_spec : ∀ (fuel : Nat) (cs : List Char),
    cs.length < fuel → SpecWikilinks cs (parseWikilinksAux fuel cs) := by
  intro fuel
  induction fuel with
  | zero => intro cs h; exact absurd h (Nat.not_lt_zero _)
  | succ fuel ih =>
      intro cs hlen
      rcases cs with - | ⟨c, rest⟩
      · exact SpecWikilinks.nil
      · have hlen' : rest.length < fuel := by
          simp only [List.length_cons] at hlen
          omega
        by_cases hc : c = '['
        · subst hc
          rcases rest with - | ⟨c2, rest2⟩
          · refine SpecWikilinks.skip ?_ (ih [] (by omega))
            intro t r hform
            obtain ⟨cs', hcs⟩ := wikilinkForm_starts hform
            exact absurd hcs (by simp)
          · by_cases hc2 : c2 = '['
            · subst hc2
              have heq : parseWikilinksAux (fuel + 1) ('[' :: '[' :: rest2) =
                  match matchWikilinkBody rest2 with
                  | some (target, rest') =>
                      String.mk (trimChars target) ::
                        parseWikilinksAux fuel rest'
                  | none => parseWikilinksAux fuel ('[' :: rest2) := rfl
              rcases hm : matchWikilinkBody rest2 with - | ⟨target, rest'⟩
              · rw [heq, hm]
                refine SpecWikilinks.skip ?_ (ih ('[' :: rest2) hlen')
                intro t r hform
                obtain ⟨t₀, hm', -⟩ := matchWikilinkBody_complete hform
                rw [hm] at hm'
                exact Option.noConfusion hm'
              · rw [heq, hm]
                have hb := matchWikilinkBody_length hm
                refine SpecWikilinks.emit (matchWikilinkBody_sound hm)
                  (ih rest' ?_)
                simp only [List.length_cons] at hlen'
                omega
            · have heq : parseWikilinksAux (fuel + 1) ('[' :: c2 :: rest2) =
                  parseWikilinksAux fuel (c2 :: rest2) := by
                show (if c2 = '[' then
                    match matchWikilinkBody rest2 with
                    | some (target, rest') =>
                        String.mk (trimChars target) ::
                          parseWikilinksAux fuel rest'
                    | none => parseWikilinksAux fuel ('[' :: rest2)
                  else parseWikilinksAux fuel (c2 :: rest2)) =
                  parseWikilinksAux fuel (c2 :: rest2)
                rw [if_neg hc2]
              rw [heq]
              refine SpecWikilinks.skip ?_ (ih (c2 :: rest2) hlen')
              intro t r hform
              obtain ⟨cs', hcs⟩ := wikilinkForm_starts hform
              injection hcs with e1 e2
              injection e2 with e3 e4
              exact hc2 e3
        · have heq : parseWikilinksAux (fuel + 1) (c :: rest) =
              parseWikilinksAux fuel rest := by
            show (if c = '[' then _ else parseWikilinksAux fuel rest) =
              parseWikilinksAux fuel rest
            rw [if_neg hc]
          rw [heq]
          refine SpecWikilinks.skip ?_ (ih rest hlen')
          intro t r hform
          obtain ⟨cs', hcs⟩ := wikilinkForm_starts hform
          injection hcs with e1 e2
          exact hc e1

/-- C9: for every input text, `parseWikilinks` returns, in order of
occurrence, exactly the trimmed Target portions of every occurrence of the
forms `[[Target]]`, `[[Target|Display]]` and `[[Target#Section]]`,
discarding the display text and the anchor; a match never spans a `]]`
boundary.  Formally: the output satisfies the spec-modelled left-to-right
scan relation `SpecWikilinks` built on the occurrence predicate
`WikilinkForm`, and that relation is deterministic, so `parseWikilinks`
computes exactly the list the specification describes. -/
theorem claim_C9_parse_wikilinks :
    (∀ content : String,
      SpecWikilinks content.data (parseWikilinks content)) ∧
    (∀ (cs : List Char) (l1 l2 : List String),
      SpecWikilinks cs l1 → SpecWikilinks cs l2 → l1 = l2) := by
  constructor
  · intro content
    exact parseWikilinksAux_spec (content.data.length + 1) content.data
      (Nat.lt_succ_self _)
  · intro cs l1 l2 h1 h2
    exact specWikilinks_det h1 h2

theorem claim_C9_parse_wikilinks_witness :
    (SpecWikilinks "a [[ B |x]] c [[D#E]]".data
        (parseWikilinks "a [[ B |x]] c [[D#E]]") ∧
      parseWikilinks "a [[ B |x]] c [[D#E]]" = ["B", "D"]) ∧
    ([] : List String) = [] :=
  ⟨⟨claim_C9_parse_wikilinks.1 "a [[ B |x]] c [[D#E]]", by decide⟩,
    claim_C9_parse_wikilinks.2 [] [] [] SpecWikilinks.nil SpecWikilinks.nil⟩

theorem mem_filterNotMem {v ns : List String} {x : String} :
    x ∈ filterNotMem v ns ↔ x ∈ ns ∧ x ∉ v := by
  induction ns with
  | nil => simp [filterNotMem]
  | cons n rest ih =>
      rw [filterNotMem]
      by_cases hn : n ∈ v
      · rw [if_pos hn, ih]
        constructor
        · rintro ⟨h1, h2⟩; exact ⟨List.mem_cons_of_mem _ h1, h2⟩
        · rintro ⟨h1, h2⟩
          rcases List.mem_cons.mp h1 with rfl | h1
          · exact absurd hn h2
          · exact ⟨h1, h2⟩
      · rw [if_neg hn]
        simp only [List.mem_cons, ih]
        constructor
        · rintro (rfl | ⟨h1, h2⟩)
          · exact ⟨Or.inl rfl, hn⟩
          · exact ⟨Or.inr h1, h2⟩
        · rintro ⟨rfl | h1, h2⟩
          · exact Or.inl rfl
          · exact Or.inr ⟨h1, h2⟩

theorem filterNotMem_grow {n : String} {ns : List String} (v : List String)
    (hn : n ∉ ns) : filterNotMem (v ++ [n]) ns = filterNotMem v ns := by
  induction ns with
  | nil => rfl
  | cons m rest ih =>
      have hmn : m ≠ n := fun he => hn (he ▸ List.mem_cons_self _ _)
      have hih := ih (fun h => hn (List.mem_cons_of_mem _ h))
      rw [filterNotMem, filterNotMem]
      by_cases hm : m ∈ v
      · rw [if_pos (List.mem_append_left _ hm), if_pos hm, hih]
      · rw [if_neg ?_, if_neg hm, hih]
        intro hmem
        rcases List.mem_append.mp hmem with h | h
        · exact hm h
        · exact hmn (List.mem_singleton.mp h)

theorem filterNotMem_nodup (v : List String) {ns : List String}
    (h : ns.Nodup) : (filterNotMem v ns).Nodup := by
  induction ns with
  | nil => exact List.nodup_nil
  | cons n rest ih =>
      rw [filterNotMem]
      obtain ⟨hn, hrest⟩ := List.nodup_cons.mp h
      by_cases hmem : n ∈ v
      · rw [if_pos hmem]; exact ih hrest
      · rw [if_neg hmem]
        refine List.nodup_cons.mpr ⟨?_, ih hrest⟩
        intro hx
        exact hn (mem_filterNotMem.mp hx).1

theorem pushNeighbors_eq (ns : List String) (dist : Nat) (h : ns.Nodup) :
    ∀ (q : List (String × Nat)) (v : List String),
    pushNeighbors ns dist q v =
      (q ++ (filterNotMem v ns).map (fun x => (x, dist)),
        v ++ filterNotMem v ns) := by
  induction ns with
  | nil => intro q v; simp [pushNeighbors, filterNotMem]
  | cons n rest ih =>
      intro q v
      obtain ⟨hn, hrest⟩ := List.nodup_cons.mp h
      rw [pushNeighbors, filterNotMem]
      by_cases hmem : n ∈ v
      · rw [if_pos hmem, if_pos hmem, ih hrest]
      · rw [if_neg hmem, if_neg hmem, ih hrest, filterNotMem_grow v hn]
        simp [List.append_assoc]

theorem nodup_subset_length {l₁ l₂ : List String} (h1 : l₁.Nodup)
    (hsub : l₁ ⊆ l₂) : l₁.length ≤ l₂.length := by
  calc l₁.length = l₁.toFinset.card := (List.toFinset_card_of_nodup h1).symm
    _ ≤ l₂.toFinset.card := by
        refine Finset.card_le_card ?_
        intro x hx
        rw [List.mem_toFinset] at hx ⊢
        exact hsub hx
    _ ≤ l₂.length := l₂.toFinset_card_le

theorem reachIn_zero {E R : List (String × List String)} {a b : String}
    (h : ReachIn E R a b 0) : a = b := by
  cases h; rfl

theorem reachIn_succ {E R : List (String × List String)} {a c : String}
    {n : Nat} (h : ReachIn E R a c (n + 1)) :
    ∃ b, b ∈ nbrsOf E R a ∧ ReachIn E R b c n := by
  cases h with
  | step h1 h2 => exact ⟨_, h1, h2⟩

theorem reachIn_snoc {E R : List (String × List String)} {a b c : String}
    {n : Nat} (h : ReachIn E R a b n) (hc : c ∈ nbrsOf E R b) :
    ReachIn E R a c (n + 1) := by
  induction h with
  | refl a => exact ReachIn.step hc (ReachIn.refl _)
  | step h1 h2 ih => exact ReachIn.step h1 (ih hc)

theorem minReach_self (E R : List (String × List String)) (a : String) :
    MinReach E R a a 0 :=
  ⟨ReachIn.refl a, fun m _ => Nat.zero_le m⟩

theorem minReach_unique {E R : List (String × List String)} {a b : String}
    {d1 d2 : Nat} (h1 : MinReach E R a b d1) (h2 : MinReach E R a b d2) :
    d1 = d2 :=
  Nat.le_antisymm (h1.2 _ h2.1) (h2.2 _ h1.1)

theorem minReach_start_eq {E R : List (String × List String)} {a b : String}
    {d : Nat} (h : MinReach E R a b d) (hd : 1 ≤ d) : b ≠ a := by
  intro he
  subst he
  have := h.2 0 (ReachIn.refl _)
  omega

/-- The escape lemma: at any BFS loop boundary, a reachable node is either
already visited or reachable from some queue entry within the remaining
distance budget. -/
theorem bfs_escape (E R : List (String × List String)) (start : String)
    (bound : Nat) (queue : List (String × Nat)) (visited : List String)
    (hqmin : ∀ p ∈ queue, MinReach E R start p.1 p.2)
    (hclos : ∀ v ∈ visited, v ∉ queue.map Prod.fst →
      (∀ b ∈ nbrsOf E R v, b ∈ visited) ∨
      (∀ m, ReachIn E R start v m → bound ≤ m)) :
    ∀ (m : Nat) (v w : String), ReachIn E R v w m → v ∈ visited →
      ∀ i, ReachIn E R start v i → i + m ≤ bound →
      w ∈ visited ∨
        ∃ p ∈ queue, ∃ k, ReachIn E R p.1 w k ∧ p.2 + k ≤ i + m := by
  intro m
  induction m with
  | zero =>
      intro v w hr hv i hi hb
      exact Or.inl ((reachIn_zero hr) ▸ hv)
  | succ m ih =>
      intro v w hr hv i hi hb
      obtain ⟨b, hbn, hbw⟩ := reachIn_succ hr
      by_cases hvq : v ∈ queue.map Prod.fst
      · obtain ⟨p, hp, hp1⟩ := List.mem_map.mp hvq
        right
        refine ⟨p, hp, m + 1, hp1.symm ▸ hr, ?_⟩
        have hpi : p.2 ≤ i := (hqmin p hp).2 i (hp1.symm ▸ hi)
        omega
      · rcases hclos v hv hvq with hexp | hbound
        · have hres := ih b w hbw (hexp b hbn) (i + 1) (reachIn_snoc hi hbn)
            (by omega)
          rcases hres with h | ⟨p, hp, k, hk1, hk2⟩
          · exact Or.inl h
          · exact Or.inr ⟨p, hp, k, hk1, by omega⟩
        · have := hbound i hi
          omega

/-- A neighbour of any node lies in the BFS universe. -/
theorem nbrs_mem_universe (E R : List (String × List String))
    (start x b : String) (hb : b ∈ nbrsOf E R x) :
    b ∈ bfsUniverse E R start := by
  unfold nbrsOf at hb
  unfold bfsUniverse
  rw [mem_dedupKeepFirst] at hb ⊢
  refine List.mem_cons_of_mem _ ?_
  rcases List.mem_append.mp hb with h | h
  · refine List.mem_append_left _ ?_
    rcases hE : alistFind E x with - | s
    · rw [hE] at h; simp at h
    · rw [hE] at h
      simp only [Option.getD_some] at h
      rw [List.mem_flatten]
      exact ⟨s, List.mem_map.mpr ⟨(x, s), alistFind_mem hE, rfl⟩, h⟩
  · refine List.mem_append_right _ ?_
    rcases hR : alistFind R x with - | s
    · rw [hR] at h; simp at h
    · rw [hR] at h
      simp only [Option.getD_some] at h
      rw [List.mem_flatten]
      exact ⟨s, List.mem_map.mpr ⟨(x, s), alistFind_mem hR, rfl⟩, h⟩

theorem start_mem_universe (E R : List (String × List String))
    (start : String) : start ∈ bfsUniverse E R start := by
  unfold bfsUniverse
  rw [mem_dedupKeepFirst]
  exact List.mem_cons_self _ _

theorem universe_nodup (E R : List (String × List String)) (start : String) :
    (bfsUniverse E R start).Nodup :=
  nodup_dedupKeepFirst _

/-- With an empty queue the visited set is closed under the adjacency
relation, so it contains everything reachable from any of its members. -/
theorem closed_reach (E R : List (String × List String))
    (visited : List String)
    (hclos : ∀ v ∈ visited, ∀ b ∈ nbrsOf E R v, b ∈ visited) :
    ∀ (m : Nat) (v w : String), v ∈ visited → ReachIn E R v w m →
      w ∈ visited := by
  intro m
  induction m with
  | zero => intro v w hv hr; exact (reachIn_zero hr) ▸ hv
  | succ m ih =>
      intro v w hv hr
      obtain ⟨b, hbn, hbw⟩ := reachIn_succ hr
      exact ih b w (hclos v hv b hbn) hbw

/-- Minimality at push time: a node not yet visited when the queue head has
distance `d` lies at distance at least `d + 1`. -/
theorem escape_min (E R : List (String × List String)) (start n : String)
    (d : Nat) (rest : List (String × Nat)) (visited : List String)
    (hqsub : ∀ p ∈ (n, d) :: rest, p.1 ∈ visited)
    (hqmin : ∀ p ∈ (n, d) :: rest, MinReach E R start p.1 p.2)
    (hsorted : List.Pairwise (fun (p q : String × Nat) => p.2 ≤ q.2)
      ((n, d) :: rest))
    (hstart : start ∈ visited) (bound : Nat)
    (hclos : ∀ v ∈ visited, v ∉ ((n, d) :: rest).map Prod.fst →
      (∀ b ∈ nbrsOf E R v, b ∈ visited) ∨
      (∀ m, ReachIn E R start v m → bound ≤ m))
    (m : Nat) (x : String) (hx : x ∉ visited)
    (hm : ReachIn E R start x m) (hmb : m ≤ bound) : d + 1 ≤ m := by
  rcases bfs_escape E R start bound ((n, d) :: rest) visited hqmin hclos
      m start x hm hstart 0 (ReachIn.refl _) (by omega) with h | ⟨p, hp, k, hk1, hk2⟩
  · exact absurd h hx
  · have hk0 : 1 ≤ k := by
      rcases Nat.eq_zero_or_pos k with rfl | h
      · exact absurd ((reachIn_zero hk1) ▸ hqsub p hp) hx
      · exact h
    have hpd : d ≤ p.2 := by
      rcases List.mem_cons.mp hp with rfl | hp'
      · exact Nat.le_refl d
      · exact (List.pairwise_cons.mp hsorted).1 p hp'
    omega

theorem map_fst_pairs (l : List String) (k : Nat) :
    (l.map (fun x => (x, k))).map Prod.fst = l := by
  induction l with
  | nil => rfl
  | cons a t ih => simp only [List.map_cons, ih]

/-- One expansion step of the `queryRelated` BFS preserves the loop
invariant. -/
theorem bfsInv_expand (E R : List (String × List String)) (start : String)
    (depth : Nat) (n : String) (d : Nat) (rest : List (String × Nat))
    (visited : List String)
    (hinv : BfsInv E R start depth ((n, d) :: rest) visited)
    (hd : d < depth) :
    BfsInv E R start depth
      (rest ++
        (filterNotMem visited (nbrsOf E R n)).map (fun x => (x, d + 1)))
      (visited ++ filterNotMem visited (nbrsOf E R n)) := by
  have hnewsmem : ∀ x ∈ filterNotMem visited (nbrsOf E R n),
      x ∈ nbrsOf E R n ∧ x ∉ visited := fun x hx => mem_filterNotMem.mp hx
  have hnodupnews : (filterNotMem visited (nbrsOf E R n)).Nodup :=
    filterNotMem_nodup visited (nodup_dedupKeepFirst _)
  have hrestd : ∀ p ∈ rest, d ≤ p.2 :=
    fun p hp => (List.pairwise_cons.mp hinv.qsorted).1 p hp
  have hrestd2 : ∀ p ∈ rest, p.2 ≤ d + 1 :=
    fun p hp => hinv.qspan p (List.mem_cons_of_mem _ hp) (n, d)
      (List.mem_cons_self _ _)
  have hnmin : MinReach E R start n d :=
    hinv.qmin (n, d) (List.mem_cons_self _ _)
  have hminnews : ∀ x ∈ filterNotMem visited (nbrsOf E R n),
      MinReach E R start x (d + 1) := by
    intro x hx
    obtain ⟨hxn, hxv⟩ := hnewsmem x hx
    refine ⟨reachIn_snoc hnmin.1 hxn, ?_⟩
    intro m hm
    by_cases hmd : m ≤ depth
    · exact escape_min E R start n d rest visited hinv.qsub hinv.qmin
        hinv.qsorted hinv.vstart depth hinv.clos m x hxv hm hmd
    · omega
  have hqnames : (rest ++
      (filterNotMem visited (nbrsOf E R n)).map (fun x => (x, d + 1))).map
        Prod.fst =
      rest.map Prod.fst ++ filterNotMem visited (nbrsOf E R n) := by
    rw [List.map_append, map_fst_pairs]
  have hrestsub : ∀ x ∈ rest.map Prod.fst, x ∈ visited := by
    intro x hx
    obtain ⟨p, hp, hpx⟩ := List.mem_map.mp hx
    exact hpx ▸ hinv.qsub p (List.mem_cons_of_mem _ hp)
  refine ⟨?_, ?_, ?_, ?_, ?_, ?_, ?_, ?_, ?_⟩
  · intro p hp
    rcases List.mem_append.mp hp with hp | hp
    · exact List.mem_append_left _
        (hinv.qsub p (List.mem_cons_of_mem _ hp))
    · obtain ⟨x, hx, hxp⟩ := List.mem_map.mp hp
      rw [← hxp]
      exact List.mem_append_right _ hx
  · intro p hp
    rcases List.mem_append.mp hp with hp | hp
    · exact hinv.qmin p (List.mem_cons_of_mem _ hp)
    · obtain ⟨x, hx, hxp⟩ := List.mem_map.mp hp
      rw [← hxp]
      exact hminnews x hx
  · rw [List.pairwise_append]
    refine ⟨(List.pairwise_cons.mp hinv.qsorted).2, ?_, ?_⟩
    · refine List.pairwise_map.mpr (List.pairwise_of_forall ?_)
      intro a b
      exact Nat.le_refl _
    · intro a ha b hb
      obtain ⟨x, hx, hxb⟩ := List.mem_map.mp hb
      rw [← hxb]
      exact hrestd2 a ha
  · intro p hp q hq
    rcases List.mem_append.mp hp with hp | hp <;>
      rcases List.mem_append.mp hq with hq | hq
    · exact hinv.qspan p (List.mem_cons_of_mem _ hp) q
        (List.mem_cons_of_mem _ hq)
    · obtain ⟨x, hx, hxq⟩ := List.mem_map.mp hq
      rw [← hxq]
      have := hrestd2 p hp
      omega
    · obtain ⟨x, hx, hxp⟩ := List.mem_map.mp hp
      rw [← hxp]
      have := hrestd q hq
      simp only []
      omega
    · obtain ⟨x, hx, hxp⟩ := List.mem_map.mp hp
      obtain ⟨y, hy, hyq⟩ := List.mem_map.mp hq
      rw [← hxp, ← hyq]
      simp only []
      omega
  · intro p hp
    rcases List.mem_append.mp hp with hp | hp
    · exact hinv.qdepth p (List.mem_cons_of_mem _ hp)
    · obtain ⟨x, hx, hxp⟩ := List.mem_map.mp hp
      rw [← hxp]
      exact hd
  · rw [hqnames]
    rw [List.nodup_append]
    refine ⟨?_, hnodupnews, ?_⟩
    · have := hinv.qnodup
      rw [List.map_cons] at this
      exact (List.nodup_cons.mp this).2
    · intro x hx hx2
      exact (hnewsmem x hx2).2 (hrestsub x hx)
  · rw [List.nodup_append]
    exact ⟨hinv.vnodup, hnodupnews, fun x hx hx2 => (hnewsmem x hx2).2 hx⟩
  · exact List.mem_append_left _ hinv.vstart
  · intro v hv hvq
    rw [hqnames] at hvq
    rcases List.mem_append.mp hv with hv | hv
    · by_cases hvn : v = n
      · subst hvn
        left
        intro b hb
        by_cases hbv : b ∈ visited
        · exact List.mem_append_left _ hbv
        · exact List.mem_append_right _ (mem_filterNotMem.mpr ⟨hb, hbv⟩)
      · have hvq0 : v ∉ ((n, d) :: rest).map Prod.fst := by
          rw [List.map_cons]
          intro hmem
          rcases List.mem_cons.mp hmem with h | h
          · exact hvn h
          · exact hvq (List.mem_append_left _ h)
        rcases hinv.clos v hv hvq0 with h | h
        · exact Or.inl (fun b hb => List.mem_append_left _ (h b hb))
        · exact Or.inr h
    · exact absurd (List.mem_append_right _ hv) hvq

/-- Popping without expansion preserves the `queryRelated` loop
invariant provided the popped distance has reached the bound. -/
theorem bfsInv_skip (E R : List (String × List String)) (start : String)
    (depth : Nat) (n : String) (d : Nat) (rest : List (String × Nat))
    (visited : List String)
    (hinv : BfsInv E R start depth ((n, d) :: rest) visited)
    (hd : depth ≤ d) : BfsInv E R start depth rest visited := by
  refine ⟨?_, ?_, ?_, ?_, ?_, ?_, hinv.vnodup, hinv.vstart, ?_⟩
  · exact fun p hp => hinv.qsub p (List.mem_cons_of_mem _ hp)
  · exact fun p hp => hinv.qmin p (List.mem_cons_of_mem _ hp)
  · exact (List.pairwise_cons.mp hinv.qsorted).2
  · exact fun p hp q hq => hinv.qspan p (List.mem_cons_of_mem _ hp) q
      (List.mem_cons_of_mem _ hq)
  · exact fun p hp => hinv.qdepth p (List.mem_cons_of_mem _ hp)
  · have := hinv.qnodup
    rw [List.map_cons] at this
    exact (List.nodup_cons.mp this).2
  · intro v hv hvq
    by_cases hvn : v = n
    · right
      intro m hm
      rw [hvn] at hm
      have hnmin := hinv.qmin (n, d) (List.mem_cons_self _ _)
      have := hnmin.2 m hm
      omega
    · refine hinv.clos v hv ?_
      rw [List.map_cons]
      intro hmem
      rcases List.mem_cons.mp hmem with h | h
      · exact hvn h
      · exact hvq h

theorem queryRelatedAux_cons (nodes : List (String × GraphNode))
    (E R : List (String × List String)) (depth fuel : Nat) (name : String)
    (dist : Nat) (queue : List (String × Nat)) (visited : List String)
    (acc : List RelatedResult) :
    queryRelatedAux nodes E R depth (fuel + 1) ((name, dist) :: queue)
        visited acc =
      if dist < depth then
        queryRelatedAux nodes E R depth fuel
          (pushNeighbors (nbrsOf E R name) (dist + 1) queue visited).1
          (pushNeighbors (nbrsOf E R name) (dist + 1) queue visited).2
          (if 0 < dist then
            match alistFind nodes name with
            | some node => acc ++ [⟨name, node.path, dist⟩]
            | none => acc
          else acc)
      else
        queryRelatedAux nodes E R depth fuel queue visited
          (if 0 < dist then
            match alistFind nodes name with
            | some node => acc ++ [⟨name, node.path, dist⟩]
            | none => acc
          else acc) := rfl

/-- Safety of the `queryRelated` BFS loop: whatever the fuel, every record
the loop ever returns lies strictly between the start and the depth bound
at its true minimum distance, and no name is recorded twice. -/
theorem queryRelatedAux_post (nodes : List (String × GraphNode))
    (E R : List (String × List String)) (start : String) (depth : Nat) :
    ∀ (fuel : Nat) (queue : List (String × Nat)) (visited : List String)
      (acc : List RelatedResult),
      BfsInv E R start depth queue visited →
      (∀ r ∈ acc, 1 ≤ r.distance ∧ r.distance ≤ depth ∧
        MinReach E R start r.name r.distance) →
      (acc.map RelatedResult.name).Nodup →
      (∀ r ∈ acc, r.name ∉ queue.map Prod.fst) →
      (∀ r ∈ acc, r.name ∈ visited) →
      (∀ r ∈ queryRelatedAux nodes E R depth fuel queue visited acc,
        1 ≤ r.distance ∧ r.distance ≤ depth ∧
        MinReach E R start r.name r.distance) ∧
      ((queryRelatedAux nodes E R depth fuel queue visited acc).map
        RelatedResult.name).Nodup := by
  intro fuel
  induction fuel with
  | zero =>
      intro queue visited acc hinv haccd haccn haccq haccv
      exact ⟨haccd, haccn⟩
  | succ fuel ih =>
      intro queue visited acc hinv haccd haccn haccq haccv
      rcases queue with - | ⟨⟨name, dist⟩, rest⟩
      · exact ⟨haccd, haccn⟩
      · rw [queryRelatedAux_cons]
        have hhead : MinReach E R start name dist :=
          hinv.qmin (name, dist) (List.mem_cons_self _ _)
        have hheadv : name ∈ visited :=
          hinv.qsub (name, dist) (List.mem_cons_self _ _)
        have hheadd : dist ≤ depth :=
          hinv.qdepth (name, dist) (List.mem_cons_self _ _)
        have hheadq : name ∉ rest.map Prod.fst := by
          have := hinv.qnodup
          rw [List.map_cons] at this
          exact (List.nodup_cons.mp this).1
        have haccd' : ∀ r ∈ (if 0 < dist then
            match alistFind nodes name with
            | some node => acc ++ [⟨name, node.path, dist⟩]
            | none => acc
          else acc), 1 ≤ r.distance ∧ r.distance ≤ depth ∧
            MinReach E R start r.name r.distance := by
          by_cases h0 : 0 < dist
          · rw [if_pos h0]
            rcases alistFind nodes name with - | node
            · exact haccd
            · intro r hr
              rcases List.mem_append.mp hr with hr | hr
              · exact haccd r hr
              · rw [List.mem_singleton.mp hr]
                exact ⟨h0, hheadd, hhead⟩
          · rw [if_neg h0]; exact haccd
        have haccn' : ((if 0 < dist then
            match alistFind nodes name with
            | some node => acc ++ [⟨name, node.path, dist⟩]
            | none => acc
          else acc).map RelatedResult.name).Nodup := by
          by_cases h0 : 0 < dist
          · rw [if_pos h0]
            rcases alistFind nodes name with - | node
            · exact haccn
            · rw [List.map_append, List.nodup_append]
              refine ⟨haccn, List.nodup_singleton _, ?_⟩
              intro x hx hx2
              rw [List.mem_singleton.mp hx2] at hx
              obtain ⟨r, hr, hrx⟩ := List.mem_map.mp hx
              exact haccq r hr (hrx ▸ List.mem_cons_self _ _)
          · rw [if_neg h0]; exact haccn
        have haccq0 : ∀ r ∈ (if 0 < dist then
            match alistFind nodes name with
            | some node => acc ++ [⟨name, node.path, dist⟩]
            | none => acc
          else acc), r.name ∉ rest.map Prod.fst ∧ r.name ∈ visited := by
          by_cases h0 : 0 < dist
          · rw [if_pos h0]
            rcases alistFind nodes name with - | node
            · exact fun r hr => ⟨fun hm => haccq r hr
                (List.mem_cons_of_mem _ hm), haccv r hr⟩
            · intro r hr
              rcases List.mem_append.mp hr with hr | hr
              · exact ⟨fun hm => haccq r hr (List.mem_cons_of_mem _ hm),
                  haccv r hr⟩
              · rw [List.mem_singleton.mp hr]
                exact ⟨hheadq, hheadv⟩
          · rw [if_neg h0]
            exact fun r hr => ⟨fun hm => haccq r hr
              (List.mem_cons_of_mem _ hm), haccv r hr⟩
        by_cases hdd : dist < depth
        · rw [if_pos hdd,
            pushNeighbors_eq (nbrsOf E R name) (dist + 1)
              (nodup_dedupKeepFirst _) rest visited]
          refine ih _ _ _ (bfsInv_expand E R start depth name dist rest
            visited hinv hdd) haccd' haccn' ?_ ?_
          · intro r hr
            rw [List.map_append, map_fst_pairs]
            intro hmem
            rcases List.mem_append.mp hmem with h | h
            · exact (haccq0 r hr).1 h
            · exact (mem_filterNotMem.mp h).2 ((haccq0 r hr).2)
          · intro r hr
            exact List.mem_append_left _ ((haccq0 r hr).2)
        · rw [if_neg hdd]
          refine ih _ _ _ (bfsInv_skip E R start depth name dist rest
            visited hinv (by omega)) haccd' haccn' ?_ ?_
          · exact fun r hr => (haccq0 r hr).1
          · exact fun r hr => (haccq0 r hr).2

theorem rstep_find_none (nodes : List (String × GraphNode)) (src : String)
    (R : List (String × List String)) (t k : String)
    (hk : (alistFind nodes k).isSome = false)
    (h : alistFind R k = none) :
    alistFind (edgeStepR nodes src R t) k = none := by
  unfold edgeStepR
  by_cases ht : (alistFind nodes t).isSome
  · rw [if_pos ht, alistFind_addToSet]
    by_cases hkt : k = t
    · rw [← hkt] at ht
      rw [ht] at hk
      exact absurd hk (by simp)
    · rw [if_neg hkt]
      by_cases hRt : (alistFind R t).isSome
      · rw [if_pos hRt]; exact h
      · rw [if_neg hRt, alistFind_set_ne _ _ (fun he => hkt he.symm)]
        exact h
  · rw [if_neg ht]; exact h

theorem rstep_fold_find_none (nodes : List (String × GraphNode))
    (src : String) (links : List String) :
    ∀ (R : List (String × List String)) (k : String),
      (alistFind nodes k).isSome = false → alistFind R k = none →
      alistFind (links.foldl (edgeStepR nodes src) R) k = none := by
  induction links with
  | nil => intro R k _ h; exact h
  | cons u rest ih =>
      intro R k hk h
      rw [List.foldl_cons]
      exact ih _ _ hk (rstep_find_none nodes src R u k hk h)

theorem rfold_find_none (nodes : List (String × GraphNode))
    (L : List (String × String)) :
    ∀ (R : List (String × List String)) (k : String),
      (alistFind nodes k).isSome = false → alistFind R k = none →
      alistFind
        (L.foldl
          (fun R pc =>
            (parseWikilinks pc.2).foldl (edgeStepR nodes (nameFromPath pc.1))
              R)
          R) k = none := by
  induction L with
  | nil => intro R k _ h; exact h
  | cons pc rest ih =>
      intro R k hk h
      rw [List.foldl_cons]
      exact ih _ _ hk (rstep_fold_find_none nodes _ _ _ _ hk h)

/-- An unknown name has no forward and no reverse adjacency entry in a
built snapshot. -/
theorem unknown_adj_none (paths : List String)
    (fetch : String → Option String) (now : Nat) (k : String)
    (hk : (alistFind (buildGraphTotal paths fetch now).nodes k).isSome =
      false) :
    alistFind (buildGraphTotal paths fetch now).edges k = none ∧
    alistFind (buildGraphTotal paths fetch now).reverseEdges k = none := by
  have hinit : alistFind
      (paths.foldl
        (fun m p => alistSet m (nameFromPath p) ([] : List String)) [])
      k = none := by
    rcases hfind : alistFind
        (paths.foldl
          (fun m p => alistSet m (nameFromPath p) ([] : List String)) [])
        k with - | s
    · rfl
    · exfalso
      have hex := (initAdj_isSome_iff paths k).mp (by rw [hfind]; rfl)
      have := (nodes_isSome_iff paths fetch now k).mpr hex
      rw [this] at hk
      exact absurd hk (by simp)
  constructor
  · rw [graph_edges_find]
    have : alistFind (buildNodeMaps paths (buildNoteContents paths fetch)).2.1
        k = none := by
      rw [buildNodeMaps_eq]
      exact hinit
    rw [this, Option.map_none']
  · rw [graph_reverseEdges_eq]
    refine rfold_find_none _ _ _ _ ?_ ?_
    · rw [← buildGraphTotal_nodes paths fetch now]
      exact hk
    · rw [buildNodeMaps_eq]
      exact hinit

theorem queryRelated_no_neighbors (g : Graph) (start : String) (depth : Nat)
    (hn : nbrsOf g.edges g.reverseEdges start = []) :
    queryRelated g start depth = [] := by
  show queryRelatedAux g.nodes g.edges g.reverseEdges depth
      ((bfsUniverse g.edges g.reverseEdges start).length + 1 + 1)
      [(start, 0)] [start] [] = []
  rw [queryRelatedAux_cons, hn]
  by_cases hd : 0 < depth
  · rw [if_pos hd]
    rfl
  · rw [if_neg hd]
    rfl

/-- C4: for every start name and depth at least 1, `queryRelated` never
returns the start itself, returns each name at most once, records each
returned name at its true minimum BFS distance in the undirected view, and
every returned distance lies between 1 and the depth bound; on a built
snapshot an unknown start name yields the empty result. -/
theorem claim_C4_query_related (g : Graph) (start : String) (depth : Nat)
    (hdepth : 1 ≤ depth) :
    (∀ r ∈ queryRelated g start depth,
      r.name ≠ start ∧ 1 ≤ r.distance ∧ r.distance ≤ depth ∧
      MinReach g.edges g.reverseEdges start r.name r.distance) ∧
    ((queryRelated g start depth).map RelatedResult.name).Nodup ∧
    (∀ paths fetch now, g = buildGraphTotal paths fetch now →
      (alistFind g.nodes start).isSome = false →
      queryRelated g start depth = []) := by
  have hinit : BfsInv g.edges g.reverseEdges start depth [(start, 0)]
      [start] := by
    refine ⟨?_, ?_, ?_, ?_, ?_, ?_, ?_, ?_, ?_⟩
    · intro p hp
      rw [List.mem_singleton] at hp
      subst hp
      exact List.mem_singleton.mpr rfl
    · intro p hp
      rw [List.mem_singleton] at hp
      subst hp
      exact minReach_self _ _ _
    · exact List.pairwise_singleton _ _
    · intro p hp q hq
      rw [List.mem_singleton] at hp hq
      subst hp
      subst hq
      omega
    · intro p hp
      rw [List.mem_singleton] at hp
      subst hp
      exact Nat.zero_le _
    · exact List.nodup_singleton _
    · exact List.nodup_singleton _
    · exact List.mem_singleton.mpr rfl
    · intro v hv hvq
      rw [List.mem_singleton] at hv
      exact absurd (by rw [hv]; exact List.mem_singleton.mpr rfl) hvq
  have hpost := queryRelatedAux_post g.nodes g.edges g.reverseEdges start
    depth (bfsFuel g.edges g.reverseEdges start) [(start, 0)] [start] []
    hinit (by intro r hr; exact absurd hr (List.not_mem_nil r))
    List.nodup_nil (by intro r hr; exact absurd hr (List.not_mem_nil r))
    (by intro r hr; exact absurd hr (List.not_mem_nil r))
  refine ⟨?_, hpost.2, ?_⟩
  · intro r hr
    have h := hpost.1 r hr
    exact ⟨minReach_start_eq h.2.2 h.1, h.1, h.2.1, h.2.2⟩
  · intro paths fetch now hg hunk
    refine queryRelated_no_neighbors g start depth ?_
    have hadj := unknown_adj_none paths fetch now start (by rw [← hg]; exact hunk)
    unfold nbrsOf
    rw [hg]
    rw [hadj.1, hadj.2]
    rfl

theorem claim_C4_query_related_witness :
    (∀ r ∈ queryRelated wGraph "B" 2,
      r.name ≠ "B" ∧ 1 ≤ r.distance ∧ r.distance ≤ 2 ∧
      MinReach wGraph.edges wGraph.reverseEdges "B" r.name r.distance) ∧
    ((queryRelated wGraph "B" 2).map RelatedResult.name).Nodup ∧
    (∀ paths fetch now, wGraph = buildGraphTotal paths fetch now →
      (alistFind wGraph.nodes "B").isSome = false →
      queryRelated wGraph "B" 2 = []) :=
  claim_C4_query_related wGraph "B" 2 (by decide)

/-- Correctness of the parent-chain reconstruction of `findPath`: from a
node at minimum distance `d` whose parent chain is coded in the map, the
loop prepends a duplicate-free neighbour chain of length `d` leading from
the start. -/
theorem reconstructPath_spec (E R : List (String × List String))
    (start : String) (parent : List (String × String))
    (hfrom : alistFind parent start = none)
    (hkeys : ∀ k p, alistFind parent k = some p → k ∈ nbrsOf E R p ∧
      ∃ dk, 1 ≤ dk ∧ MinReach E R start k dk ∧
        MinReach E R start p (dk - 1) ∧
        (p = start ∨ (alistFind parent p).isSome = true)) :
    ∀ (d : Nat) (z : String) (fuel : Nat) (acc : List String),
      MinReach E R start z d →
      (z = start ∨ (alistFind parent z).isSome = true) →
      d < fuel →
      ∃ pre, reconstructPath parent fuel z acc = pre ++ acc ∧
        pre.length = d ∧
        List.Chain' (fun a b => b ∈ nbrsOf E R a) (pre ++ [z]) ∧
        (pre ++ [z]).head? = some start ∧
        (pre ++ [z]).Nodup ∧
        (∀ v ∈ pre ++ [z], ∃ dv, MinReach E R start v dv ∧ dv ≤ d) ∧
        (∀ v ∈ pre, v = start ∨ (alistFind parent v).isSome = true) := by
  intro d
  induction d with
  | zero =>
      intro z fuel acc hmin hz hfu
      have hz0 : start = z := reachIn_zero hmin.1
      subst hz0
      rcases fuel with - | f
      · omega
      · have heq : reconstructPath parent (f + 1) start acc =
            match alistFind parent start with
            | some p => reconstructPath parent f p (p :: acc)
            | none => acc := rfl
        rw [heq, hfrom]
        refine ⟨[], rfl, rfl, List.chain'_singleton _, rfl,
          List.nodup_singleton _, ?_, ?_⟩
        · intro v hv
          rw [List.nil_append, List.mem_singleton] at hv
          subst hv
          exact ⟨0, hmin, Nat.le_refl _⟩
        · intro v hv
          exact absurd hv (List.not_mem_nil v)
  | succ d0 ih =>
      intro z fuel acc hmin hz hfu
      have hzs : z ≠ start := minReach_start_eq hmin (by omega)
      rcases hz with rfl | hz
      · exact absurd rfl hzs
      · obtain ⟨p, hp⟩ := Option.isSome_iff_exists.mp hz
        obtain ⟨hnbr, dk, hdk1, hmk, hmp, hpor⟩ := hkeys z p hp
        have hdkd : dk = d0 + 1 := minReach_unique hmk hmin
        rw [hdkd] at hmp
        simp only [Nat.add_sub_cancel] at hmp
        rcases fuel with - | f
        · omega
        · have heq : reconstructPath parent (f + 1) z acc =
              match alistFind parent z with
              | some q => reconstructPath parent f q (q :: acc)
              | none => acc := rfl
          rw [heq, hp]
          obtain ⟨pre0, hrec, hlen, hchain, hhead, hnodup, hdists, hkeys0⟩ :=
            ih p f (p :: acc) hmp hpor (by omega)
          have hzne : z ∉ pre0 ++ [p] := by
            intro hmem
            obtain ⟨dv, hdv, hdvle⟩ := hdists z hmem
            have := minReach_unique hdv hmin
            omega
          refine ⟨pre0 ++ [p], ?_, ?_, ?_, ?_, ?_, ?_, ?_⟩
          · show reconstructPath parent f p (p :: acc) = pre0 ++ [p] ++ acc
            rw [hrec, List.append_assoc]
            rfl
          · rw [List.length_append, hlen]
            rfl
          · rw [List.chain'_append]
            refine ⟨hchain, List.chain'_singleton _, ?_⟩
            intro x hx y hy
            rw [List.getLast?_concat] at hx
            rw [Option.mem_def, Option.some.injEq] at hx
            subst hx
            simp only [List.head?_cons, Option.mem_def,
              Option.some.injEq] at hy
            subst hy
            exact hnbr
          · rcases pre0 with - | ⟨a, t⟩
            · rw [List.nil_append] at hhead ⊢
              rw [List.head?_cons] at hhead
              show (p :: [z]).head? = some start
              rw [List.head?_cons]
              exact hhead
            · rw [List.cons_append, List.head?_cons] at hhead
              rw [List.cons_append, List.cons_append, List.head?_cons]
              exact hhead
          · rw [List.nodup_append]
            refine ⟨hnodup, List.nodup_singleton _, ?_⟩
            intro x hx hx2
            rw [List.mem_singleton] at hx2
            subst hx2
            exact hzne hx
          · intro v hv
            rcases List.mem_append.mp hv with hv | hv
            · obtain ⟨dv, hdv, hdvle⟩ := hdists v hv
              exact ⟨dv, hdv, by omega⟩
            · rw [List.mem_singleton] at hv
              subst hv
              exact ⟨d0 + 1, hmin, Nat.le_refl _⟩
          · intro v hv
            rcases List.mem_append.mp hv with hv | hv
            · exact hkeys0 v hv
            · rw [List.mem_singleton] at hv
              subst hv
              exact hpor

/-- The minimum distance of any coded node is bounded by the size of the
parent map, so the reconstruction fuel used by the source always
suffices. -/
theorem parent_chain_bound (E R : List (String × List String))
    (start : String) (parent : List (String × String))
    (hfrom : alistFind parent start = none)
    (hkeys : ∀ k p, alistFind parent k = some p → k ∈ nbrsOf E R p ∧
      ∃ dk, 1 ≤ dk ∧ MinReach E R start k dk ∧
        MinReach E R start p (dk - 1) ∧
        (p = start ∨ (alistFind parent p).isSome = true))
    (z : String) (d : Nat) (hmin : MinReach E R start z d)
    (hz : z = start ∨ (alistFind parent z).isSome = true) :
    d ≤ parent.length := by
  obtain ⟨pre, -, hlen, -, hhead, hnodup, -, hkeys0⟩ :=
    reconstructPath_spec E R start parent hfrom hkeys d z (d + 1) [] hmin hz
      (by omega)
  rcases d with - | d0
  · exact Nat.zero_le _
  · have hzs : z ≠ start := minReach_start_eq hmin (by omega)
    rcases pre with - | ⟨a, t⟩
    · exact absurd hlen (by simp)
    · rw [List.cons_append, List.head?_cons, Option.some.injEq] at hhead
      rw [List.cons_append, List.nodup_cons] at hnodup
      obtain ⟨hstart_nin, htz_nodup⟩ := hnodup
      have hkeysub : ∀ v ∈ t ++ [z], v ∈ parent.map Prod.fst := by
        intro v hv
        have hvne : v ≠ start := by
          intro he
          rw [← hhead] at he
          exact hstart_nin (he ▸ hv)
        have hsome : (alistFind parent v).isSome = true := by
          rcases List.mem_append.mp hv with hv | hv
          · rcases hkeys0 v (List.mem_cons_of_mem _ hv) with h | h
            · exact absurd h hvne
            · exact h
          · rw [List.mem_singleton] at hv
            subst hv
            rcases hz with h | h
            · exact absurd h hzs
            · exact h
        obtain ⟨p, hp⟩ := Option.isSome_iff_exists.mp hsome
        exact List.mem_map.mpr ⟨(v, p), alistFind_mem hp, rfl⟩
      have hlen2 : (t ++ [z]).length = d0 + 1 := by
        rw [List.length_cons] at hlen
        rw [List.length_append, List.length_singleton]
        omega
      have hbound := nodup_subset_length htz_nodup
        (fun x hx => hkeysub x hx)
      rw [List.length_map] at hbound
      omega

theorem parentOk_set (E R : List (String × List String))
    (start cur n : String) (d : Nat) (parent : List (String × String))
    (hok : ParentOk E R start parent)
    (hnbr : n ∈ nbrsOf E R cur)
    (hnmin : MinReach E R start n (d + 1))
    (hcmin : MinReach E R start cur d)
    (hcor : cur = start ∨ (alistFind parent cur).isSome = true)
    (hns : n ≠ start) :
    ParentOk E R start (alistSet parent n cur) := by
  obtain ⟨hfrom, hkeys⟩ := hok
  constructor
  · rw [alistFind_set_ne _ _ hns]
    exact hfrom
  · intro k p hkp
    by_cases hkn : k = n
    · subst hkn
      rw [alistFind_set_self] at hkp
      injection hkp with hp
      subst hp
      refine ⟨hnbr, d + 1, by omega, hnmin, ?_, ?_⟩
      · rw [Nat.add_sub_cancel]
        exact hcmin
      · rcases hcor with h | h
        · exact Or.inl h
        · right
          by_cases hcn : cur = k
          · rw [hcn, alistFind_set_self]
            rfl
          · rw [alistFind_set_ne _ _ (fun he => hcn he.symm)]
            exact h
    · rw [alistFind_set_ne _ _ (fun he => hkn he.symm)] at hkp
      obtain ⟨h1, dk, h2, h3, h4, h5⟩ := hkeys k p hkp
      refine ⟨h1, dk, h2, h3, h4, ?_⟩
      rcases h5 with h | h
      · exact Or.inl h
      · right
        by_cases hpn : p = n
        · rw [hpn, alistFind_set_self]
          rfl
        · rw [alistFind_set_ne _ _ (fun he => hpn he.symm)]
          exact h

/-- The neighbour loop of `findPath` preserves the state relationship and,
when it returns early, returns a correct shortest path to the target. -/
theorem visitNeighbors_spec (E R : List (String × List String))
    (start tgt cur : String) (d : Nat) (visited0 : List String)
    (hminN : ∀ x, x ∈ nbrsOf E R cur → x ∉ visited0 →
      MinReach E R start x (d + 1))
    (hcur : MinReach E R start cur d)
    (hcurv : cur ∈ visited0)
    (hstartv : start ∈ visited0) :
    ∀ (ns : List String) (visited : List String)
      (parent : List (String × String)) (qAcc : List String),
      (∀ x ∈ ns, x ∈ nbrsOf E R cur) →
      visited = visited0 ++ qAcc →
      (∀ x ∈ qAcc, x ∈ nbrsOf E R cur ∧ x ≠ tgt ∧
        MinReach E R start x (d + 1) ∧ x ∉ visited0) →
      visited.Nodup →
      tgt ∉ visited →
      ParentOk E R start parent →
      (∀ v ∈ visited, v ≠ start → (alistFind parent v).isSome = true) →
      (match visitNeighbors tgt cur ns visited parent qAcc with
       | Sum.inl s =>
           s.1 = visited0 ++ s.2.2 ∧
           (∀ x ∈ s.2.2, x ∈ nbrsOf E R cur ∧ x ≠ tgt ∧
             MinReach E R start x (d + 1) ∧ x ∉ visited0) ∧
           s.1.Nodup ∧
           tgt ∉ s.1 ∧
           ParentOk E R start s.2.1 ∧
           (∀ v ∈ s.1, v ≠ start → (alistFind s.2.1 v).isSome = true) ∧
           (∀ x ∈ visited, x ∈ s.1) ∧
           (∀ x ∈ ns, x ∈ s.1)
       | Sum.inr path =>
           path.head? = some start ∧ path.getLast? = some tgt ∧
           List.Chain' (fun a b => b ∈ nbrsOf E R a) path ∧
           ∃ dt, MinReach E R start tgt dt ∧ path.length = dt + 1) := by
  intro ns
  induction ns with
  | nil =>
      intro visited parent qAcc hns hveq hqAcc hvnd htv hpok hvkeys
      exact ⟨hveq, hqAcc, hvnd, htv, hpok, hvkeys, fun x hx => hx,
        fun x hx => absurd hx (List.not_mem_nil x)⟩
  | cons n rest ih =>
      intro visited parent qAcc hns hveq hqAcc hvnd htv hpok hvkeys
      have heq : visitNeighbors tgt cur (n :: rest) visited parent qAcc =
          if n ∈ visited then
            visitNeighbors tgt cur rest visited parent qAcc
          else if n = tgt then
            Sum.inr (reconstructPath (alistSet parent n cur)
              ((alistSet parent n cur).length + 1) tgt [tgt])
          else visitNeighbors tgt cur rest (visited ++ [n])
            (alistSet parent n cur) (qAcc ++ [n]) := rfl
      rw [heq]
      by_cases hnv : n ∈ visited
      · rw [if_pos hnv]
        have hres := ih visited parent qAcc
          (fun x hx => hns x (List.mem_cons_of_mem _ hx)) hveq hqAcc hvnd
          htv hpok hvkeys
        rcases hV : visitNeighbors tgt cur rest visited parent qAcc with s | path
        · rw [hV] at hres
          obtain ⟨h1, h2, h3, h4, h5, h6, h7, h8⟩ := hres
          refine ⟨h1, h2, h3, h4, h5, h6, h7, ?_⟩
          intro x hx
          rcases List.mem_cons.mp hx with rfl | hx
          · exact h7 x hnv
          · exact h8 x hx
        · rw [hV] at hres
          exact hres
      · rw [if_neg hnv]
        have hnn0 : n ∉ visited0 :=
          fun h => hnv (hveq ▸ List.mem_append_left _ h)
        have hnnb : n ∈ nbrsOf E R cur := hns n (List.mem_cons_self _ _)
        have hnmin : MinReach E R start n (d + 1) := hminN n hnnb hnn0
        have hns2 : n ≠ start :=
          fun he => hnv (hveq ▸ List.mem_append_left _ (he ▸ hstartv))
        have hcor : cur = start ∨ (alistFind parent cur).isSome = true := by
          by_cases hcs : cur = start
          · exact Or.inl hcs
          · exact Or.inr (hvkeys cur (hveq ▸ List.mem_append_left _ hcurv)
              hcs)
        have hpok' : ParentOk E R start (alistSet parent n cur) :=
          parentOk_set E R start cur n d parent hpok hnnb hnmin hcur hcor
            hns2
        by_cases hnt : n = tgt
        · rw [if_pos hnt]
          have htmin : MinReach E R start tgt (d + 1) := hnt ▸ hnmin
          have htkey : (alistFind (alistSet parent n cur) tgt).isSome =
              true := by
            rw [← hnt, alistFind_set_self]
            rfl
          have hbound := parent_chain_bound E R start (alistSet parent n cur)
            hpok'.1 hpok'.2 tgt (d + 1) htmin (Or.inr htkey)
          obtain ⟨pre, hrec, hlen, hchain, hhead, hnodup, hdist, hkeyss⟩ :=
            reconstructPath_spec E R start (alistSet parent n cur) hpok'.1
              hpok'.2 (d + 1) tgt ((alistSet parent n cur).length + 1) [tgt]
              htmin (Or.inr htkey) (by omega)
          refine ⟨?_, ?_, ?_, d + 1, htmin, ?_⟩
          · rw [hrec]
            exact hhead
          · rw [hrec]
            exact List.getLast?_concat _
          · rw [hrec]
            exact hchain
          · rw [hrec, List.length_append, hlen]
            rfl
        · rw [if_neg hnt]
          have hveq' : visited ++ [n] = visited0 ++ (qAcc ++ [n]) := by
            rw [hveq, List.append_assoc]
          have hqAcc' : ∀ x ∈ qAcc ++ [n], x ∈ nbrsOf E R cur ∧ x ≠ tgt ∧
              MinReach E R start x (d + 1) ∧ x ∉ visited0 := by
            intro x hx
            rcases List.mem_append.mp hx with hx | hx
            · exact hqAcc x hx
            · rw [List.mem_singleton] at hx
              subst hx
              exact ⟨hnnb, hnt, hnmin, hnn0⟩
          have hvnd' : (visited ++ [n]).Nodup := by
            rw [List.nodup_append]
            refine ⟨hvnd, List.nodup_singleton _, ?_⟩
            intro x hx hx2
            rw [List.mem_singleton] at hx2
            subst hx2
            exact hnv hx
          have htv' : tgt ∉ visited ++ [n] := by
            intro h
            rcases List.mem_append.mp h with h | h
            · exact htv h
            · rw [List.mem_singleton] at h
              exact hnt h.symm
          have hvkeys' : ∀ v ∈ visited ++ [n], v ≠ start →
              (alistFind (alistSet parent n cur) v).isSome = true := by
            intro v hv hvs
            rcases List.mem_append.mp hv with hv | hv
            · have hvn : v ≠ n := fun he => hnv (he ▸ hv)
              rw [alistFind_set_ne _ _ (fun he => hvn he.symm)]
              exact hvkeys v hv hvs
            · rw [List.mem_singleton] at hv
              subst hv
              rw [alistFind_set_self]
              rfl
          have hres := ih (visited ++ [n]) (alistSet parent n cur)
            (qAcc ++ [n]) (fun x hx => hns x (List.mem_cons_of_mem _ hx))
            hveq' hqAcc' hvnd' htv' hpok' hvkeys'
          rcases hV : visitNeighbors tgt cur rest (visited ++ [n])
              (alistSet parent n cur) (qAcc ++ [n]) with s | path
          · rw [hV] at hres
            obtain ⟨h1, h2, h3, h4, h5, h6, h7, h8⟩ := hres
            refine ⟨h1, h2, h3, h4, h5, h6, ?_, ?_⟩
            · intro x hx
              exact h7 x (List.mem_append_left _ hx)
            · intro x hx
              rcases List.mem_cons.mp hx with rfl | hx
              · exact h7 x (List.mem_append_right _
                  (List.mem_singleton.mpr rfl))
              · exact h8 x hx
          · rw [hV] at hres
            exact hres

/-- Full correctness of the `findPath` BFS loop: with the invariant and
sufficient fuel (which the arithmetic invariant guarantees), the loop
returns a shortest path exactly when the target is reachable. -/
theorem findPathAux_post (E R : List (String × List String))
    (start tgt : String) :
    ∀ (fuel : Nat) (qd : List (String × Nat)) (visited : List String)
      (parent : List (String × String)),
      PathInv E R start tgt qd visited parent →
      qd.length + (bfsUniverse E R start).length ≤ fuel + visited.length →
      (∀ x ∈ visited, x ∈ bfsUniverse E R start) →
      (match findPathAux E R tgt fuel (qd.map Prod.fst) visited parent with
       | some l => l.head? = some start ∧ l.getLast? = some tgt ∧
           List.Chain' (fun a b => b ∈ nbrsOf E R a) l ∧
           ∃ dd, MinReach E R start tgt dd ∧ l.length = dd + 1
       | none => ∀ m, ¬ReachIn E R start tgt m) := by
  intro fuel
  induction fuel with
  | zero =>
      intro qd visited parent hinv harith hsub
      have hvle : visited.length ≤ (bfsUniverse E R start).length :=
        nodup_subset_length hinv.vnodup (fun x hx => hsub x hx)
      have hq0 : qd = [] := by
        rcases qd with - | ⟨p, rest⟩
        · rfl
        · exfalso
          rw [List.length_cons] at harith
          omega
      subst hq0
      intro m hm
      exact hinv.tnotv (closed_reach E R visited
        (fun v hv b hb => hinv.clos v hv (by simp) b hb) m start tgt
        hinv.vstart hm)
  | succ fuel ih =>
      intro qd visited parent hinv harith hsub
      rcases qd with - | ⟨⟨cur, d⟩, restd⟩
      · intro m hm
        exact hinv.tnotv (closed_reach E R visited
          (fun v hv b hb => hinv.clos v hv (by simp) b hb) m start tgt
          hinv.vstart hm)
      · have hcur : MinReach E R start cur d :=
          hinv.qmin (cur, d) (List.mem_cons_self _ _)
        have hcurv : cur ∈ visited :=
          hinv.qsub (cur, d) (List.mem_cons_self _ _)
        have hminN : ∀ x, x ∈ nbrsOf E R cur → x ∉ visited →
            MinReach E R start x (d + 1) := by
          intro x hx hxv
          refine ⟨reachIn_snoc hcur.1 hx, ?_⟩
          intro m hm
          exact escape_min E R start cur d restd visited hinv.qsub
            hinv.qmin hinv.qsorted hinv.vstart m
            (fun v hv hq => Or.inl (hinv.clos v hv hq)) m x hxv hm
            (Nat.le_refl m)
        have hspec := visitNeighbors_spec E R start tgt cur d visited hminN
          hcur hcurv hinv.vstart (nbrsOf E R cur) visited parent []
          (fun x hx => hx) (by simp) (by simp) hinv.vnodup hinv.tnotv
          ⟨hinv.pfrom, hinv.pkeys⟩ hinv.vkeys
        have heq : findPathAux E R tgt (fuel + 1)
            (((cur, d) :: restd).map Prod.fst) visited parent =
            match visitNeighbors tgt cur (nbrsOf E R cur) visited parent []
              with
            | Sum.inr path => some path
            | Sum.inl (v3, p3, q3) => findPathAux E R tgt fuel
                (restd.map Prod.fst ++ q3) v3 p3 := rfl
        rcases hV : visitNeighbors tgt cur (nbrsOf E R cur) visited parent []
          with ⟨v2, p2, q2⟩ | path
        · rw [hV] at hspec
          dsimp only at hspec
          obtain ⟨h1, h2, h3, h4, h5, h6, h7, h8⟩ := hspec
          have hfinal : findPathAux E R tgt (fuel + 1)
              (((cur, d) :: restd).map Prod.fst) visited parent =
              findPathAux E R tgt fuel (restd.map Prod.fst ++ q2) v2 p2 := by
            rw [heq, hV]
          have hrestd : ∀ p ∈ restd, d ≤ p.2 :=
            fun p hp => (List.pairwise_cons.mp hinv.qsorted).1 p hp
          have hrestd2 : ∀ p ∈ restd, p.2 ≤ d + 1 :=
            fun p hp => hinv.qspan p (List.mem_cons_of_mem _ hp) (cur, d)
              (List.mem_cons_self _ _)
          have hq2nodup : q2.Nodup := by
            have := h3
            rw [h1] at this
            exact (List.nodup_append.mp this).2.1
          have hrestsub : ∀ x ∈ restd.map Prod.fst, x ∈ visited := by
            intro x hx
            obtain ⟨p, hp, hpx⟩ := List.mem_map.mp hx
            exact hpx ▸ hinv.qsub p (List.mem_cons_of_mem _ hp)
          have hinv' : PathInv E R start tgt
              (restd ++ q2.map (fun x => (x, d + 1))) v2 p2 := by
            refine ⟨?_, ?_, ?_, ?_, ?_, h3, h7 start hinv.vstart, h4, ?_,
              h5.1, h5.2, h6⟩
            · intro p hp
              rcases List.mem_append.mp hp with hp | hp
              · exact h7 _ (hinv.qsub p (List.mem_cons_of_mem _ hp))
              · obtain ⟨x, hx, hxp⟩ := List.mem_map.mp hp
                rw [← hxp]
                rw [h1]
                exact List.mem_append_right _ hx
            · intro p hp
              rcases List.mem_append.mp hp with hp | hp
              · exact hinv.qmin p (List.mem_cons_of_mem _ hp)
              · obtain ⟨x, hx, hxp⟩ := List.mem_map.mp hp
                rw [← hxp]
                exact (h2 x hx).2.2.1
            · rw [List.pairwise_append]
              refine ⟨(List.pairwise_cons.mp hinv.qsorted).2, ?_, ?_⟩
              · refine List.pairwise_map.mpr (List.pairwise_of_forall ?_)
                intro a b
                exact Nat.le_refl _
              · intro a ha b hb
                obtain ⟨x, hx, hxb⟩ := List.mem_map.mp hb
                rw [← hxb]
                exact hrestd2 a ha
            · intro p hp q hq
              rcases List.mem_append.mp hp with hp | hp <;>
                rcases List.mem_append.mp hq with hq | hq
              · exact hinv.qspan p (List.mem_cons_of_mem _ hp) q
                  (List.mem_cons_of_mem _ hq)
              · obtain ⟨x, hx, hxq⟩ := List.mem_map.mp hq
                rw [← hxq]
                have := hrestd2 p hp
                omega
              · obtain ⟨x, hx, hxp⟩ := List.mem_map.mp hp
                rw [← hxp]
                have := hrestd q hq
                simp only []
                omega
              · obtain ⟨x, hx, hxp⟩ := List.mem_map.mp hp
                obtain ⟨y, hy, hyq⟩ := List.mem_map.mp hq
                rw [← hxp, ← hyq]
                simp only []
                omega
            · rw [List.map_append, map_fst_pairs, List.nodup_append]
              refine ⟨?_, hq2nodup, ?_⟩
              · have := hinv.qnodup
                rw [List.map_cons] at this
                exact (List.nodup_cons.mp this).2
              · intro x hx hx2
                exact (h2 x hx2).2.2.2 (hrestsub x hx)
            · intro v hv hvq
              rw [List.map_append, map_fst_pairs] at hvq
              rw [h1] at hv
              rcases List.mem_append.mp hv with hv | hv
              · by_cases hvc : v = cur
                · subst hvc
                  exact fun b hb => h8 b hb
                · have hvq0 : v ∉ ((cur, d) :: restd).map Prod.fst := by
                    rw [List.map_cons]
                    intro hmem
                    rcases List.mem_cons.mp hmem with h | h
                    · exact hvc h
                    · exact hvq (List.mem_append_left _ h)
                  intro b hb
                  exact h7 b (hinv.clos v hv hvq0 b hb)
              · exact absurd (List.mem_append_right _ hv) hvq
          have harith' : (restd ++ q2.map (fun x => (x, d + 1))).length +
              (bfsUniverse E R start).length ≤ fuel + v2.length := by
            rw [List.length_append, List.length_map]
            have hv2len : v2.length = visited.length + q2.length := by
              rw [h1, List.length_append]
            rw [List.length_cons] at harith
            omega
          have hsub' : ∀ x ∈ v2, x ∈ bfsUniverse E R start := by
            intro x hx
            rw [h1] at hx
            rcases List.mem_append.mp hx with hx | hx
            · exact hsub x hx
            · exact nbrs_mem_universe E R start cur x (h2 x hx).1
          have hres := ih (restd ++ q2.map (fun x => (x, d + 1))) v2 p2
            hinv' harith' hsub'
          rw [List.map_append, map_fst_pairs] at hres
          rw [hfinal]
          exact hres
        · rw [hV] at hspec
          have hfinal : findPathAux E R tgt (fuel + 1)
              (((cur, d) :: restd).map Prod.fst) visited parent =
              some path := by
            rw [heq, hV]
          rw [hfinal]
          exact hspec

/-- C3: `findPath(a, a)` returns the single-element sequence even for an
unknown name; for distinct known names every returned sequence starts at
the first name, ends at the second, follows forward/reverse edges, and its
hop count is the exact shortest undirected distance, while the no-path
result occurs exactly when no chain of forward/reverse edges connects the
two names. -/
theorem claim_C3_find_path (g : Graph) (a b : String) :
    (a = b → findPath g a b = some [a]) ∧
    (a ≠ b → (alistFind g.nodes a).isSome = true →
      (alistFind g.nodes b).isSome = true →
      (∀ l, findPath g a b = some l →
        l.head? = some a ∧ l.getLast? = some b ∧
        List.Chain' (fun x y => y ∈ nbrsOf g.edges g.reverseEdges x) l ∧
        ∃ d, MinReach g.edges g.reverseEdges a b d ∧ l.length = d + 1) ∧
      (findPath g a b = none ↔
        ¬∃ m, ReachIn g.edges g.reverseEdges a b m)) := by
  constructor
  · intro hab
    unfold findPath
    rw [if_pos hab]
  · intro hab ha hb
    have hfp : findPath g a b = findPathAux g.edges g.reverseEdges b
        (bfsFuel g.edges g.reverseEdges a) [a] [a] [] := by
      unfold findPath
      rw [if_neg hab, ha, hb]
      rw [if_neg (by simp), if_neg (by simp)]
    have hinit : PathInv g.edges g.reverseEdges a b [(a, 0)] [a] [] := by
      refine ⟨?_, ?_, ?_, ?_, ?_, ?_, ?_, ?_, ?_, rfl, ?_, ?_⟩
      · intro p hp
        rw [List.mem_singleton] at hp
        subst hp
        exact List.mem_singleton.mpr rfl
      · intro p hp
        rw [List.mem_singleton] at hp
        subst hp
        exact minReach_self _ _ _
      · exact List.pairwise_singleton _ _
      · intro p hp q hq
        rw [List.mem_singleton] at hp hq
        subst hp
        subst hq
        omega
      · exact List.nodup_singleton _
      · exact List.nodup_singleton _
      · exact List.mem_singleton.mpr rfl
      · intro hmem
        rw [List.mem_singleton] at hmem
        exact hab hmem.symm
      · intro v hv hvq
        rw [List.mem_singleton] at hv
        exact absurd (by rw [hv]; exact List.mem_singleton.mpr rfl) hvq
      · intro k p h
        exact Option.noConfusion h
      · intro v hv hvs
        rw [List.mem_singleton] at hv
        exact absurd hv hvs
    have hpost := findPathAux_post g.edges g.reverseEdges a b
      (bfsFuel g.edges g.reverseEdges a) [(a, 0)] [a] [] hinit
      (by
        show 1 + (bfsUniverse g.edges g.reverseEdges a).length ≤
          (bfsUniverse g.edges g.reverseEdges a).length + 2 + 1
        omega)
      (by
        intro x hx
        rw [List.mem_singleton] at hx
        subst hx
        exact start_mem_universe _ _ _)
    have hmap : ([((a : String), (0 : Nat))].map Prod.fst) = [a] := rfl
    rw [hmap] at hpost
    constructor
    · intro l hl
      rw [hfp] at hl
      rw [hl] at hpost
      exact hpost
    · constructor
      · intro hn
        rw [hfp] at hn
        rw [hn] at hpost
        rintro ⟨m, hm⟩
        exact hpost m hm
      · intro hnc
        rcases hres : findPath g a b with - | l
        · rfl
        · exfalso
          rw [hfp] at hres
          rw [hres] at hpost
          obtain ⟨-, -, -, dd, hdd, -⟩ := hpost
          exact hnc ⟨dd, hdd.1⟩

theorem claim_C3_find_path_witness :
    findPath wGraph "B" "C" = some ["B", "A", "C"] ∧
    (∃ d, MinReach wGraph.edges wGraph.reverseEdges "B" "C" d ∧
      (["B", "A", "C"] : List String).length = d + 1) ∧
    findPath wGraph "B" "B" = some ["B"] := by
  refine ⟨by decide, ?_, (claim_C3_find_path wGraph "B" "B").1 rfl⟩
  exact (((claim_C3_find_path wGraph "B" "C").2 (by decide) (by decide)
    (by decide)).1 ["B", "A", "C"] (by decide)).2.2.2

end ObsidianGraph
